import Mathlib

/-!
Verification of the biicodemaps core against its design document.

The development shallowly embeds the two core modules:

* biicodemaps/model.py : the graph data model (City, Road, Map);
* biicodemaps/routing.py : the three shortest-path algorithms
  (plain Dijkstra, priority-queue Dijkstra, A-star) and the
  lazy-deletion decrease-key priority queue they share.

Modelling conventions, fixed once for the whole file:

* Python object identity. Within one Map all cities are uniquely named,
  and City/Road objects are created only through the Map factory, so a
  reference to a City is modelled by its name (a String) and a Road by
  the ordered pair of its endpoint names.  Attribute access through a
  reference (city.x, city.roads, road.city_1), which can never fail in
  Python, is modelled by a total name lookup with an irrelevant default
  that is only reachable on maps violating the Map invariant.
* Python dict item access d[k], which raises KeyError on a missing key,
  is modelled by an association-list lookup returning Except; dict.get,
  which returns None, is modelled by Option.  The dijkstra initialiser
  stores None in previous_city for every city; since every use goes
  through dict.get, an explicitly stored None is modelled as an absent
  key.
* Python float arithmetic is modelled by a linearly ordered commutative
  ring, with float infinity as the top element of WithTop; math.sqrt is
  passed in as an explicit function parameter.  Concrete evaluations use
  integer coordinates placed so that every distance arising in the run
  is an integer, where binary floating point and math.sqrt are exact, so
  the integer runs mirror the Python runs step by step.
* The while loops of the two queue-driven algorithms are modelled with a
  fuel parameter; running out of fuel yields the distinguished error
  Err.outOfFuel, which no theorem below ever treats as a result.
* heapq maintains a binary min-heap of [priority, count, value] lists
  compared lexicographically; since counts are unique, heappop returns
  the least (priority, count) pair.  The heap is modelled as the list of
  its elements with heappop extracting that least element.
-/

set_option linter.unusedVariables false

/-- Error kinds raised by the embedded code.  The Python code raises a
single exception class with distinct messages; the constructors below
mirror those messages.  keyError models a Python KeyError from dict item
access, and outOfFuel is the out-of-fuel marker of the loop embedding. -/
inductive Err where
  | unknownCity (name : String)
  | notAMember (name : String)
  | emptyQueue
  | keyError
  | sameCity
  | duplicateRoad
  | outOfFuel
deriving DecidableEq

instance {ε β : Type} [DecidableEq ε] [DecidableEq β] : DecidableEq (Except ε β) := fun x y =>
  match x, y with
  | .ok a, .ok b => decidable_of_iff (a = b) (by simp)
  | .error a, .error b => decidable_of_iff (a = b) (by simp)
  | .ok _, .error _ => isFalse (by simp)
  | .error _, .ok _ => isFalse (by simp)

/-- Association-list lookup; models Python dict lookup (keys are unique
in every state reachable through the factory operations). -/
def alookup {κ β : Type} [DecidableEq κ] : List (κ × β) → κ → Option β
  | [], _ => none
  | (k1, v) :: t, k => if k = k1 then some v else alookup t k

/-- Association-list update; models Python dict assignment. -/
def aupdate {κ β : Type} [DecidableEq κ] : List (κ × β) → κ → β → List (κ × β)
  | [], k, v => [(k, v)]
  | (k1, v1) :: t, k, v => if k1 = k then (k, v) :: t else (k1, v1) :: aupdate t k v

/-- Association-list deletion; models Python del d[k] / dict.pop. -/
def aerase {κ β : Type} [DecidableEq κ] : List (κ × β) → κ → List (κ × β)
  | [], _ => []
  | (k1, v1) :: t, k => if k1 = k then t else (k1, v1) :: aerase t k

theorem alookup_aupdate_self {κ β : Type} [DecidableEq κ] (l : List (κ × β)) (k : κ) (v : β) :
    alookup (aupdate l k v) k = some v := by
  induction l with
  | nil => simp [alookup, aupdate]
  | cons h t ih =>
    obtain ⟨k1, v1⟩ := h
    by_cases hk : k1 = k
    · subst hk
      simp [alookup, aupdate]
    · simp [alookup, aupdate, hk, Ne.symm hk, ih]

theorem alookup_aupdate_ne {κ β : Type} [DecidableEq κ] (l : List (κ × β)) (k k2 : κ) (v : β)
    (h : k2 ≠ k) : alookup (aupdate l k v) k2 = alookup l k2 := by
  induction l with
  | nil => simp [alookup, aupdate, h]
  | cons hd t ih =>
    obtain ⟨k1, v1⟩ := hd
    by_cases hk : k1 = k
    · subst hk
      simp [alookup, aupdate, h]
    · simp only [aupdate, if_neg hk, alookup]
      by_cases hk2 : k2 = k1
      · simp [hk2]
      · simp [hk2, ih]

/-- A successful alookup on a mapped-over association list. -/
theorem alookup_map_self {κ β : Type} [DecidableEq κ] (f : κ → β) (l : List κ) (k : κ)
    (hk : k ∈ l) : alookup (l.map (fun c => (c, f c))) k = some (f k) := by
  induction l with
  | nil => cases hk
  | cons h t ih =>
    rcases List.mem_cons.mp hk with h1 | h1
    · subst h1
      simp [alookup]
    · by_cases he : k = h
      · subst he
        simp [alookup]
      · simp [alookup, he, ih h1]

/-- The domain of alookup is the key set. -/
theorem alookup_isSome_iff {κ β : Type} [DecidableEq κ] (l : List (κ × β)) (k : κ) :
    (alookup l k).isSome = true ↔ k ∈ l.map Prod.fst := by
  induction l with
  | nil => simp [alookup]
  | cons h t ih =>
    obtain ⟨k1, v1⟩ := h
    by_cases hk : k = k1
    · subst hk
      simp [alookup]
    · simp [alookup, hk, ih]

/-! ## The graph model (biicodemaps/model.py) -/

/-- A road between two cities; city_1 and city_2 hold the endpoint
references, modelled by the endpoint names (Road.__init__ stores the two
City arguments in order). -/
structure Road where
  city_1 : String
  city_2 : String
deriving DecidableEq

/-- The per-city data of a City object: coordinates x, y and the mutable
road-membership list _roads, in append order.  The name of the city is
the key under which this record is stored in its Map. -/
structure CityData (α : Type) where
  x : α
  y : α
  roads : List Road
deriving DecidableEq

/-- A Map: the name-keyed collection of cities (in creation order, as a
modern Python dict preserves insertion order) and the redundant road
list (in creation order). -/
structure Map (α : Type) where
  cities : List (String × CityData α)
  roads : List Road
deriving DecidableEq

/-- Map.city: lookup by name, returning None (here: Option.none) when
absent. -/
def Map.city {α : Type} (m : Map α) (name : String) : Option (CityData α) :=
  alookup m.cities name

/-- The road list of the city named n; models the attribute access
city.roads on a reference, which cannot fail in Python.  The default []
is only reachable when the reference is dangling, which the Map
invariant rules out. -/
def Map.roadsOf {α : Type} (m : Map α) (n : String) : List Road :=
  match m.city n with
  | some cd => cd.roads
  | none => []

/-- The coordinates of the city named n; models the attribute accesses
city.x and city.y, with the same dangling-reference caveat as roadsOf. -/
def Map.coord {α : Type} [Zero α] (m : Map α) (n : String) : α × α :=
  match m.city n with
  | some cd => (cd.x, cd.y)
  | none => (0, 0)

/-- City.has_road_to: scan the road list for a road having the passed
city as an endpoint (the source compares with object identity, which
within one Map is name equality). -/
def CityData.has_road_to {α : Type} (cd : CityData α) (other : String) : Bool :=
  cd.roads.any (fun r => r.city_1 = other || r.city_2 = other)

/-- Road.other_end: return the opposite endpoint, or fail when the
passed city is not an endpoint. -/
def Road.other_end (r : Road) (c : String) : Except Err String :=
  if c = r.city_1 then .ok r.city_2
  else if c = r.city_2 then .ok r.city_1
  else .error (.notAMember c)

/-- The duplicate check city_1.has_road_to(city_2) performed through the
map (city_1 is a resolved reference in the source). -/
def Map.cityHasRoadTo {α : Type} (m : Map α) (n1 n2 : String) : Bool :=
  match m.city n1 with
  | some cd => cd.has_road_to n2
  | none => false

/-- City._add_road: append the road to the road list of the city named
n. -/
def Map.addRoadTo {α : Type} (m : Map α) (n : String) (r : Road) : Map α :=
  { m with
    cities := m.cities.map
      (fun p => if p.1 = n then (p.1, { p.2 with roads := p.2.roads ++ [r] }) else p) }

/-- Road.__init__ on resolved endpoint references: fail when the two
references are identical, fail when a road to the other city already
exists, otherwise register the new road in both endpoint road lists (in
this order).  The Map is threaded so that the mutation sequencing of the
source is preserved. -/
def Road.init {α : Type} (m : Map α) (n1 n2 : String) : Map α × Except Err Road :=
  if n1 = n2 then (m, .error .sameCity)
  else if m.cityHasRoadTo n1 n2 then (m, .error .duplicateRoad)
  else
    let r : Road := ⟨n1, n2⟩
    (((m.addRoadTo n1 r).addRoadTo n2 r), .ok r)

/-- Map.create_road: resolve both names (failing on the first unknown
one), build the Road, then append it to the map road list. -/
def Map.create_road {α : Type} (m : Map α) (n1 n2 : String) : Map α × Except Err Road :=
  match m.city n1 with
  | none => (m, .error (.unknownCity n1))
  | some _ =>
    match m.city n2 with
    | none => (m, .error (.unknownCity n2))
    | some _ =>
      match Road.init m n1 n2 with
      | (m1, .error e) => (m1, .error e)
      | (m1, .ok r) => ({ m1 with roads := m1.roads ++ [r] }, .ok r)

/-- The at-rest invariant of a Map built through the factory operations:
unique city names; every road has distinct, present endpoints; every
road in a city list is incident to that city and registered in the map;
every registered road is in the road list of each of its endpoints. -/
def Map.WF {α : Type} (m : Map α) : Prop :=
  (m.cities.map Prod.fst).Nodup ∧
  (∀ r ∈ m.roads, r.city_1 ≠ r.city_2 ∧ (m.city r.city_1).isSome ∧ (m.city r.city_2).isSome) ∧
  (∀ p ∈ m.cities, ∀ r ∈ p.2.roads, (r.city_1 = p.1 ∨ r.city_2 = p.1) ∧ r ∈ m.roads) ∧
  (∀ r ∈ m.roads, ∀ p ∈ m.cities, (r.city_1 = p.1 ∨ r.city_2 = p.1) → r ∈ p.2.roads)

instance {α : Type} [DecidableEq α] (m : Map α) : Decidable m.WF := by
  unfold Map.WF
  infer_instance

/-- Two city names are adjacent when some registered road connects
them. -/
def Map.Adj {α : Type} (m : Map α) (a b : String) : Prop :=
  ∃ r ∈ m.roads, (r.city_1 = a ∧ r.city_2 = b) ∨ (r.city_1 = b ∧ r.city_2 = a)

/-- A city is reachable from another when a chain of roads connects
them. -/
def Map.Reachable {α : Type} (m : Map α) (o c : String) : Prop :=
  Relation.ReflTransGen m.Adj o c

/-! ## The decrease-key priority queue (routing.py, class PriorityQueue) -/

/-- The value slot of a heap entry: a live value, or the sentinel left
by lazy deletion (entry[-1] = REMOVED). -/
inductive Slot (V : Type) where
  | val (v : V)
  | removed
deriving DecidableEq

/-- One heap entry [priority, count, value]. -/
structure PQEntry (P V : Type) where
  priority : P
  count : Nat
  slot : Slot V
deriving DecidableEq

/-- The queue state: the heap contents, the value-to-entry dict
(modelled as value-to-count, counts being unique entry identities), and
the itertools.count sequence counter. -/
structure PriorityQueue (P V : Type) where
  queue : List (PQEntry P V)
  entries : List (V × Nat)
  counter : Nat
deriving DecidableEq

def PriorityQueue.empty {P V : Type} : PriorityQueue P V := ⟨[], [], 0⟩

/-- Lexicographic comparison of heap entries by (priority, count), the
order heapq uses on [priority, count, value] lists (counts are unique,
so the value is never compared). -/
def entryLE {P V : Type} [LinearOrder P] (a b : PQEntry P V) : Prop :=
  a.priority < b.priority ∨ (a.priority = b.priority ∧ a.count ≤ b.count)

instance {P V : Type} [LinearOrder P] (a b : PQEntry P V) : Decidable (entryLE a b) := by
  unfold entryLE
  infer_instance

/-- heappop: extract the least entry (leftmost among equals, which
cannot arise since counts are unique) and the remaining heap. -/
def heapPop {P V : Type} [LinearOrder P] :
    List (PQEntry P V) → Option (PQEntry P V × List (PQEntry P V))
  | [] => none
  | e :: es =>
    match heapPop es with
    | none => some (e, [])
    | some (m, rest) => if entryLE e m then some (e, es) else some (m, e :: rest)

/-- The pop loop: keep heappopping until a live entry appears, then
delete its value from the entries dict and return it; fail with the
empty-queue error when the heap is exhausted.  The fuel is the heap
size, which bounds the number of heappops. -/
def popAux {P V : Type} [LinearOrder P] [DecidableEq V] :
    Nat → List (PQEntry P V) → List (V × Nat) →
      Except Err (V × List (PQEntry P V) × List (V × Nat))
  | 0, _, _ => .error .emptyQueue
  | fuel+1, q, es =>
    match heapPop q with
    | none => .error .emptyQueue
    | some (e, q1) =>
      match e.slot with
      | .removed => popAux fuel q1 es
      | .val v => .ok (v, q1, aerase es v)

/-- PriorityQueue.pop. -/
def PriorityQueue.pop {P V : Type} [LinearOrder P] [DecidableEq V] (pq : PriorityQueue P V) :
    Except Err (V × PriorityQueue P V) :=
  match popAux pq.queue.length pq.queue pq.entries with
  | .error e => .error e
  | .ok (v, q1, es1) => .ok (v, { pq with queue := q1, entries := es1 })

/-- PriorityQueue.remove: pop the value from the entries dict and mark
its (aliased) heap entry as removed.  The source raises KeyError on an
absent value; push, its only caller, guards the call with a presence
check, so the absent branch below is unreachable and modelled as the
identity. -/
def PriorityQueue.remove {P V : Type} [LinearOrder P] [DecidableEq V]
    (pq : PriorityQueue P V) (v : V) : PriorityQueue P V :=
  match alookup pq.entries v with
  | none => pq
  | some c =>
    { pq with
      entries := aerase pq.entries v,
      queue := pq.queue.map (fun e => if e.count = c then { e with slot := .removed } else e) }

/-- PriorityQueue.push: lazily delete any existing entry for the value,
then insert a fresh [priority, count, value] entry with the next
sequence count. -/
def PriorityQueue.push {P V : Type} [LinearOrder P] [DecidableEq V]
    (pq : PriorityQueue P V) (v : V) (p : P) : PriorityQueue P V :=
  let pq1 := if (alookup pq.entries v).isSome then pq.remove v else pq
  { queue := pq1.queue ++ [⟨p, pq1.counter, .val v⟩],
    entries := pq1.entries ++ [(v, pq1.counter)],
    counter := pq1.counter + 1 }

/-- PriorityQueue.__contains__. -/
def PriorityQueue.containsVal {P V : Type} [DecidableEq V]
    (pq : PriorityQueue P V) (v : V) : Bool :=
  (alookup pq.entries v).isSome

/-- PriorityQueue.__len__: the number of live entries. -/
def PriorityQueue.size {P V : Type} (pq : PriorityQueue P V) : Nat :=
  pq.entries.length

/-! ## The routing engine (biicodemaps/routing.py) -/

/-- The underscore-prefixed safe-cities helper: resolve both names,
failing on the first absent one.  The map is threaded to record that the
call leaves it untouched. -/
def safe_cities {α : Type} (m : Map α) (o d : String) :
    Map α × Except Err (String × String) :=
  match m.city o with
  | none => (m, .error (.unknownCity o))
  | some _ =>
    match m.city d with
    | none => (m, .error (.unknownCity d))
    | some _ => (m, .ok (o, d))

/-- The backward walk of the underscore-prefixed results helper:
prepend the current city name, follow the previous link, stop when it is
absent.  The fuel (set by the caller to one more than the size of the
previous map) covers every acyclic chain; Python would loop forever on a
cyclic one, which no reachable state produces. -/
def walkPath : Nat → String → List String → List (String × String) → List String
  | 0, c, acc, _ => c :: acc
  | fuel+1, c, acc, prev =>
    let acc1 := c :: acc
    match alookup prev c with
    | none => acc1
    | some p => walkPath fuel p acc1 prev

/-- The underscore-prefixed results helper shared by the three
algorithms: with no previous link for the destination, answer ([origin],
0) when origin and destination coincide and ([], infinity) otherwise;
with a link, walk the previous chain backwards and pair the path with
the recorded destination cost. -/
def results {α : Type} [Zero α] (origin dest : String) (prev : List (String × String))
    (cost : List (String × WithTop α)) : Except Err (List String × WithTop α) :=
  match alookup prev dest with
  | none =>
    if origin = dest then .ok ([origin], (0 : WithTop α))
    else .ok ([], (⊤ : WithTop α))
  | some _ =>
    match alookup cost dest with
    | none => .error .keyError
    | some cd => .ok (walkPath (prev.length + 1) dest [] prev, cd)

/-- The inner euclidean_distance helper of the A-star function, also the
formula of the Road.length property: sqrt of the sum of squared
coordinate differences, with the square root passed in for math.sqrt. -/
def euclidean_distance {α : Type} [LinearOrderedCommRing α] (sq : α → α) (m : Map α)
    (n1 n2 : String) : α :=
  sq (((m.coord n1).1 - (m.coord n2).1) ^ 2 + ((m.coord n1).2 - (m.coord n2).2) ^ 2)

/-- Road.length: the euclidean distance between the two endpoints,
recomputed from current coordinates. -/
def Road.lengthIn {α : Type} [LinearOrderedCommRing α] (sq : α → α) (m : Map α) (r : Road) : α :=
  euclidean_distance sq m r.city_1 r.city_2

/-- Python min(unvisited_cities, key=...): scan left to right keeping
the first strictly smaller key, returning the first minimum. -/
def pyMin {β : Type} [LinearOrder β] (key : String → β) : String → List String → String
  | b, [] => b
  | b, c :: cs => pyMin key (if key c < key b then c else b) cs

/-- The relaxation loop shared textually by both Dijkstra variants (the
for loop over the roads of the popped city), without the queue update of
the priority-queue variant. -/
def dijkstra_relax {α : Type} [LinearOrderedCommRing α] (sq : α → α) (m : Map α) (city : String) :
    List Road → List (String × WithTop α) → List (String × String) →
      Except Err (List (String × WithTop α) × List (String × String))
  | [], cost, prev => .ok (cost, prev)
  | r :: rs, cost, prev =>
    match r.other_end city with
    | .error e => .error e
    | .ok n =>
      match alookup cost city with
      | none => .error .keyError
      | some cc =>
        let newCost := cc + (↑(Road.lengthIn sq m r) : WithTop α)
        match alookup cost n with
        | none => .error .keyError
        | some cn =>
          if newCost < cn then
            dijkstra_relax sq m city rs (aupdate cost n newCost) (aupdate prev n city)
          else
            dijkstra_relax sq m city rs cost prev

/-- The main loop of the original (linear-scan) Dijkstra: pick the
unvisited city of least cost with a linear scan, remove it, stop on the
destination, otherwise relax its roads.  The loop removes one city per
iteration, so the fuel passed by the caller (city count plus one) always
suffices; outOfFuel is unreachable from the entry point. -/
def dijkstra_loop {α : Type} [LinearOrderedCommRing α] (sq : α → α) (m : Map α) (dest : String) :
    Nat → List String → List (String × WithTop α) → List (String × String) →
      Except Err (List (String × WithTop α) × List (String × String))
  | 0, _, _, _ => .error .outOfFuel
  | _+1, [], cost, prev => .ok (cost, prev)
  | fuel+1, u :: us, cost, prev =>
    let city := pyMin (fun c => (alookup cost c).getD ⊤) u us
    let unvisited1 := (u :: us).erase city
    if city = dest then .ok (cost, prev)
    else
      match dijkstra_relax sq m city (m.roadsOf city) cost prev with
      | .error e => .error e
      | .ok (cost1, prev1) => dijkstra_loop sq m dest fuel unvisited1 cost1 prev1

/-- shortest_path_dijkstra_original.  The returned pair carries the map
through the call (first component) next to the Python return value
(second component). -/
def shortest_path_dijkstra_original {α : Type} [LinearOrderedCommRing α] (sq : α → α)
    (m : Map α) (o d : String) : Map α × Except Err (List String × WithTop α) :=
  match safe_cities m o d with
  | (m1, .error e) => (m1, .error e)
  | (m1, .ok (oc, dc)) =>
    let cities := m1.cities.map Prod.fst
    let cost : List (String × WithTop α) :=
      cities.map (fun c => (c, if c = oc then (0 : WithTop α) else ⊤))
    match dijkstra_loop sq m1 dc (cities.length + 1) cities cost [] with
    | .error e => (m1, .error e)
    | .ok (cost1, prev1) => (m1, results oc dc prev1 cost1)

/-- The initialisation loop of the priority-queue Dijkstra: build the
cost dict and push every city keyed by its initial cost, in city order
(so the sequence counts follow creation order). -/
def dijkstra_pq_init {α : Type} [LinearOrderedCommRing α] (origin : String)
    (cities : List String) :
    List (String × WithTop α) × PriorityQueue (WithTop α) String :=
  cities.foldl
    (fun acc c =>
      let v : WithTop α := if c = origin then 0 else ⊤
      (acc.1 ++ [(c, v)], acc.2.push c v))
    ([], .empty)

/-- The relaxation loop of the priority-queue Dijkstra: as
dijkstra_relax, plus the decrease-key push of the improved neighbour
keyed by its updated cost. -/
def dijkstra_pq_relax {α : Type} [LinearOrderedCommRing α] (sq : α → α) (m : Map α)
    (city : String) :
    List Road → List (String × WithTop α) → List (String × String) →
      PriorityQueue (WithTop α) String →
      Except Err (List (String × WithTop α) × List (String × String) ×
        PriorityQueue (WithTop α) String)
  | [], cost, prev, pq => .ok (cost, prev, pq)
  | r :: rs, cost, prev, pq =>
    match r.other_end city with
    | .error e => .error e
    | .ok n =>
      match alookup cost city with
      | none => .error .keyError
      | some cc =>
        let newCost := cc + (↑(Road.lengthIn sq m r) : WithTop α)
        match alookup cost n with
        | none => .error .keyError
        | some cn =>
          if newCost < cn then
            dijkstra_pq_relax sq m city rs (aupdate cost n newCost) (aupdate prev n city)
              (pq.push n newCost)
          else
            dijkstra_pq_relax sq m city rs cost prev pq

/-- The main loop of the priority-queue Dijkstra: while the queue holds
live entries, pop the cheapest city, stop on the destination, otherwise
relax its roads. -/
def dijkstra_pq_loop {α : Type} [LinearOrderedCommRing α] (sq : α → α) (m : Map α)
    (dest : String) :
    Nat → List (String × WithTop α) → List (String × String) →
      PriorityQueue (WithTop α) String →
      Except Err (List (String × WithTop α) × List (String × String))
  | 0, _, _, _ => .error .outOfFuel
  | fuel+1, cost, prev, pq =>
    if pq.entries.isEmpty then .ok (cost, prev)
    else
      match pq.pop with
      | .error e => .error e
      | .ok (city, pq1) =>
        if city = dest then .ok (cost, prev)
        else
          match dijkstra_pq_relax sq m city (m.roadsOf city) cost prev pq1 with
          | .error e => .error e
          | .ok (cost1, prev1, pq2) => dijkstra_pq_loop sq m dest fuel cost1 prev1 pq2

/-- shortest_path_dijkstra_priority_queue, with the while loop bounded
by an explicit fuel parameter. -/
def shortest_path_dijkstra_priority_queue {α : Type} [LinearOrderedCommRing α] (sq : α → α)
    (fuel : Nat) (m : Map α) (o d : String) :
    Map α × Except Err (List String × WithTop α) :=
  match safe_cities m o d with
  | (m1, .error e) => (m1, .error e)
  | (m1, .ok (oc, dc)) =>
    let cities := m1.cities.map Prod.fst
    match dijkstra_pq_init oc cities with
    | (cost, pq) =>
      match dijkstra_pq_loop sq m1 dc fuel cost [] pq with
      | .error e => (m1, .error e)
      | .ok (cost1, prev1) => (m1, results oc dc prev1 cost1)

/-- The search state of the A-star function: the closed set, the open
priority queue keyed by estimated total cost, the previous-city dict,
cost_from_origin (g-score) and estimated_total_cost (f-score). -/
structure AState (α : Type) where
  closed : List String
  openSet : PriorityQueue (WithTop α) String
  prev : List (String × String)
  gScore : List (String × WithTop α)
  fScore : List (String × WithTop α)
deriving DecidableEq

/-- One-iteration outcome of the A-star main loop: continue, or break
because the destination was popped. -/
inductive AStep (α : Type) where
  | next (st : AState α)
  | done (st : AState α)
deriving DecidableEq

/-- The neighbour loop of one A-star iteration: skip closed neighbours;
when a neighbour is unseen in the open set or its tentative g-score
improves on the recorded one, record previous, g-score and f-score, and
push it onto the open queue only when it was not already there (the
short-circuit of the source condition is preserved: the g-score of a
neighbour outside the open set is never read). -/
def a_star_relax {α : Type} [LinearOrderedCommRing α] (sq : α → α) (m : Map α)
    (dest city : String) : List Road → AState α → Except Err (AState α)
  | [], st => .ok st
  | r :: rs, st =>
    match r.other_end city with
    | .error e => .error e
    | .ok n =>
      if n ∈ st.closed then a_star_relax sq m dest city rs st
      else
        match alookup st.gScore city with
        | none => .error .keyError
        | some gc =>
          let newCost := gc + (↑(Road.lengthIn sq m r) : WithTop α)
          let inOpen := st.openSet.containsVal n
          let proceed : Except Err Bool :=
            if inOpen then
              match alookup st.gScore n with
              | none => .error .keyError
              | some gn => .ok (decide (newCost < gn))
            else .ok true
          match proceed with
          | .error e => .error e
          | .ok false => a_star_relax sq m dest city rs st
          | .ok true =>
            let fNew := newCost + (↑(euclidean_distance sq m n dest) : WithTop α)
            let st1 : AState α :=
              { st with
                gScore := aupdate st.gScore n newCost,
                fScore := aupdate st.fScore n fNew,
                prev := aupdate st.prev n city,
                openSet := if inOpen then st.openSet else st.openSet.push n fNew }
            a_star_relax sq m dest city rs st1

/-- One iteration of the A-star main loop: pop the least-estimate city,
add it to the closed set, break when it is the destination, otherwise
relax its roads. -/
def a_star_step {α : Type} [LinearOrderedCommRing α] (sq : α → α) (m : Map α) (dest : String)
    (st : AState α) : Except Err (AStep α) :=
  match st.openSet.pop with
  | .error e => .error e
  | .ok (city, open1) =>
    let st1 : AState α := { st with openSet := open1, closed := st.closed ++ [city] }
    if city = dest then .ok (.done st1)
    else
      match a_star_relax sq m dest city (m.roadsOf city) st1 with
      | .error e => .error e
      | .ok st2 => .ok (.next st2)

/-- The A-star main loop, bounded by fuel. -/
def a_star_loop {α : Type} [LinearOrderedCommRing α] (sq : α → α) (m : Map α) (dest : String) :
    Nat → AState α → Except Err (AState α)
  | 0, _ => .error .outOfFuel
  | fuel+1, st =>
    if st.openSet.entries.isEmpty then .ok st
    else
      match a_star_step sq m dest st with
      | .error e => .error e
      | .ok (.done st1) => .ok st1
      | .ok (.next st1) => a_star_loop sq m dest fuel st1

/-- The initialisation of the A-star search: the g-score of the origin
is 0, its f-score the heuristic alone, and the open set holds only the
origin. -/
def a_star_init {α : Type} [LinearOrderedCommRing α] (sq : α → α) (m : Map α)
    (o d : String) : AState α :=
  let g0 : WithTop α := 0
  let f0 : WithTop α := g0 + (↑(euclidean_distance sq m o d) : WithTop α)
  { closed := [], openSet := PriorityQueue.empty.push o f0,
    prev := [], gScore := [(o, g0)], fScore := [(o, f0)] }

/-- shortest_path_a_star, with the while loop bounded by an explicit
fuel parameter. -/
def shortest_path_a_star {α : Type} [LinearOrderedCommRing α] (sq : α → α) (fuel : Nat)
    (m : Map α) (o d : String) : Map α × Except Err (List String × WithTop α) :=
  match safe_cities m o d with
  | (m1, .error e) => (m1, .error e)
  | (m1, .ok (oc, dc)) =>
    match a_star_loop sq m1 dc fuel (a_star_init sq m1 oc dc) with
    | .error e => (m1, .error e)
    | .ok st => (m1, results oc dc st.prev st.gScore)

/-- Downward search for the natural square root: the largest j at most
fuel with j * j at most n. -/
def natSqrtAux : Nat → Nat → Nat
  | 0, _ => 0
  | fuel+1, n => if (fuel+1) * (fuel+1) ≤ n then fuel+1 else natSqrtAux fuel n

/-- The floor of the square root of a natural number. -/
def natSqrt (n : Nat) : Nat :=
  natSqrtAux n n

/-- Exact integer square root: the value of math.sqrt on every
nonnegative integer input whose square root is integral, the only inputs
arising in the concrete runs below (on such inputs binary floating point
represents every intermediate value exactly, so the integer runs mirror
the Python runs). -/
def intSqrt (z : ℤ) : ℤ :=
  (natSqrt z.toNat : ℤ)

theorem natSqrtAux_eq (fuel n k : Nat) (hk : k ≤ fuel) (hsq : k * k ≤ n)
    (hmax : ∀ j, j * j ≤ n → j ≤ k) : natSqrtAux fuel n = k := by
  induction fuel with
  | zero =>
    have h0 : k = 0 := Nat.le_zero.mp hk
    simp [natSqrtAux, h0]
  | succ f ih =>
    by_cases h : (f + 1) * (f + 1) ≤ n
    · have h1 : f + 1 ≤ k := hmax (f + 1) h
      have h2 : k = f + 1 := le_antisymm hk h1
      simp [natSqrtAux, h, h2]
    · have h1 : k ≠ f + 1 := by
        intro he
        exact h (he ▸ hsq)
      have h2 : k ≤ f := by omega
      simp only [natSqrtAux, if_neg h]
      exact ih h2

/-- On a perfect square, natSqrt recovers the root exactly. -/
theorem natSqrt_mul_self (k : Nat) : natSqrt (k * k) = k := by
  unfold natSqrt
  refine natSqrtAux_eq (k * k) (k * k) k ?_ le_rfl ?_
  · nlinarith
  · intro j hj
    by_contra hjk
    push_neg at hjk
    nlinarith

/-- On the square of a nonnegative integer, intSqrt recovers the root:
the embeddings below only ever apply the square-root parameter to such
inputs, where math.sqrt is exact as well. -/
theorem intSqrt_sq (z : ℤ) (hz : 0 ≤ z) : intSqrt (z ^ 2) = z := by
  obtain ⟨n, rfl⟩ := Int.eq_ofNat_of_zero_le hz
  unfold intSqrt
  have h1 : ((n : ℤ) ^ 2).toNat = n * n := by
    have h2 : ((n : ℤ) ^ 2) = ((n * n : ℕ) : ℤ) := by
      push_cast
      ring
    rw [h2, Int.toNat_natCast]
  rw [h1, natSqrt_mul_self]

/-! ## Concrete maps used by the claim theorems -/

/-- Some registered road connects the two named cities (in either
endpoint order). -/
def Road.connects (r : Road) (a b : String) : Prop :=
  (r.city_1 = a ∧ r.city_2 = b) ∨ (r.city_1 = b ∧ r.city_2 = a)

instance (r : Road) (a b : String) : Decidable (r.connects a b) := by
  unfold Road.connects
  infer_instance

def rOW : Road := ⟨"O", "W"⟩
def rOX : Road := ⟨"O", "X"⟩
def rOY : Road := ⟨"O", "Y"⟩
def rWU : Road := ⟨"W", "U"⟩
def rXU : Road := ⟨"X", "U"⟩
def rUD : Road := ⟨"U", "D"⟩
def rYD : Road := ⟨"Y", "D"⟩

/-- Six collinear cities (all on the x axis, so every euclidean distance
is the integer coordinate difference and both math.sqrt and binary
floating point are exact on this map).  Creation order of cities and
roads as listed.  The shortest O-to-D route is O, X, U, D of cost
10 + 6 + 4 = 20; the detour O, Y, D costs 21 + 1 = 22.  U is first
discovered from W (g-score 20, f-score 24) and later improved from X
(g-score 16, f-score 20) while it sits in the open set, which exercises
the missing decrease-key push of the A-star implementation. -/
def cexMap : Map ℤ :=
  { cities :=
      [ ("O", ⟨20, 0, [rOW, rOX, rOY]⟩),
        ("W", ⟨2, 0, [rOW, rWU]⟩),
        ("X", ⟨10, 0, [rOX, rXU]⟩),
        ("Y", ⟨-1, 0, [rOY, rYD]⟩),
        ("U", ⟨4, 0, [rWU, rXU, rUD]⟩),
        ("D", ⟨0, 0, [rUD, rYD]⟩) ],
    roads := [rOW, rOX, rOY, rWU, rXU, rUD, rYD] }

set_option maxRecDepth 100000 in
/-- C1.  The claim states that the three routing functions agree on
total_cost for every Map and every valid name pair.  On cexMap, from O
to D, both Dijkstra variants return the optimal cost 20 while the
A-star implementation returns 22 (it never refreshes the queue priority
of a neighbour whose g-score improves inside the open set, so the
destination is popped before the improved route through U is explored).
The conjunction records the two Dijkstra runs, the A-star run, that the
costs differ, and that the witness map satisfies the Map invariant. -/
theorem C1_algorithms_disagree_on_cexMap :
    cexMap.WF ∧
    (shortest_path_dijkstra_original intSqrt cexMap "O" "D").2 =
      .ok (["O", "X", "U", "D"], ((20 : ℤ) : WithTop ℤ)) ∧
    (shortest_path_dijkstra_priority_queue intSqrt 10 cexMap "O" "D").2 =
      .ok (["O", "X", "U", "D"], ((20 : ℤ) : WithTop ℤ)) ∧
    (shortest_path_a_star intSqrt 10 cexMap "O" "D").2 =
      .ok (["O", "Y", "D"], ((22 : ℤ) : WithTop ℤ)) ∧
    ((20 : ℤ) : WithTop ℤ) ≠ ((22 : ℤ) : WithTop ℤ) := by
  refine ⟨by decide, by decide, by decide, by decide, by decide⟩

/-- The A-star search state on cexMap after three loop iterations (the
pops of O, W and X), obtained by unfolding the loop step by step. -/
def cexSt3 : Option (AState ℤ) :=
  match a_star_step intSqrt cexMap "D" (a_star_init intSqrt cexMap "O" "D") with
  | .ok (.next st1) =>
    match a_star_step intSqrt cexMap "D" st1 with
    | .ok (.next st2) =>
      match a_star_step intSqrt cexMap "D" st2 with
      | .ok (.next st3) => some st3
      | _ => none
    | _ => none
  | _ => none

/-- Projections of the state after three A-star iterations, used by the
C2 theorem: the closed set, the recorded g-score and f-score of U, the
open-set membership of U, and the priorities of the queue entries whose
live value is U. -/
def c2closed : Option (List String) := cexSt3.map (fun st => st.closed)

def c2gScoreU : Option (Option (WithTop ℤ)) := cexSt3.map (fun st => alookup st.gScore "U")

def c2fScoreU : Option (Option (WithTop ℤ)) := cexSt3.map (fun st => alookup st.fScore "U")

def c2inOpenU : Option Bool := cexSt3.map (fun st => st.openSet.containsVal "U")

def c2prioU : Option (List (WithTop ℤ)) :=
  cexSt3.map (fun st =>
    (st.openSet.queue.filter fun e => e.slot = Slot.val "U").map PQEntry.priority)

set_option maxRecDepth 100000 in
/-- C2.  The claim states that a neighbour already in the open set whose
g-score improves is re-inserted with its queue priority lowered to the
new f-score.  On cexMap the third A-star iteration (the pop of X, after
O and W) improves the g-score of U from 20 to 16 while U is in the open
set: afterwards the dicts record g-score 16 and f-score 20, yet the only
queue entry holding U still carries the stale priority 24 from its
original push — the source guards the push with a not-in-open test, so
the promised decrease-key push never happens. -/
theorem C2_no_decrease_key_push_in_a_star :
    c2closed = some ["O", "W", "X"] ∧
    c2gScoreU = some (some ((16 : ℤ) : WithTop ℤ)) ∧
    c2fScoreU = some (some ((20 : ℤ) : WithTop ℤ)) ∧
    c2inOpenU = some true ∧
    c2prioU = some [((24 : ℤ) : WithTop ℤ)] ∧
    ((24 : ℤ) : WithTop ℤ) ≠ ((20 : ℤ) : WithTop ℤ) := by
  refine ⟨by decide, by decide, by decide, by decide, by decide, by decide⟩

/-- The single city record of city A in the two-city map below. -/
def cdA : CityData ℤ := ⟨0, 0, [⟨"A", "B"⟩]⟩

/-- A two-city map with the single road A-B. -/
def mapAB : Map ℤ :=
  { cities := [("A", cdA), ("B", ⟨1, 1, [⟨"A", "B"⟩]⟩)], roads := [⟨"A", "B"⟩] }

/-- C8, counterexample.  The claim states that has_road_to answers true
exactly when the road list holds a road whose other end is the queried
city — a road connecting it to the distinct queried city.  For the
self query A.has_road_to(A) on mapAB the code answers true (the scan
only asks whether the queried city is an endpoint, and A is an endpoint
of its own road), yet no road of A has other end A. -/
theorem C8_self_query_counterexample :
    mapAB.WF ∧ Map.city mapAB "A" = some cdA ∧
    cdA.has_road_to "A" = true ∧
    (∀ r ∈ cdA.roads, Road.other_end r "A" ≠ .ok "A") := by
  decide

/-- C8, as amended.  On a well-formed map, has_road_to answers true
exactly when either some listed road connects the city to the queried
city, or the queried city is the city itself and its road list is
nonempty (every listed road has the owning city as an endpoint, so a
self query degenerates to a nonemptiness test). -/
theorem C8_amended {α : Type} (m : Map α) (n : String) (cd : CityData α)
    (hm : m.WF) (hc : (n, cd) ∈ m.cities) (other : String) :
    cd.has_road_to other = true ↔
      ((∃ r ∈ cd.roads, r.connects n other) ∨ (other = n ∧ cd.roads ≠ [])) := by
  obtain ⟨hnod, hroads, hlists, hback⟩ := hm
  unfold CityData.has_road_to
  rw [List.any_eq_true]
  constructor
  · rintro ⟨r, hr, hend⟩
    have hinc := hlists (n, cd) hc r hr
    have hne := (hroads r hinc.2).1
    rcases Bool.or_eq_true_iff.mp hend with h1 | h1
    · have he1 : r.city_1 = other := by
        exact of_decide_eq_true h1
      rcases hinc.1 with h2 | h2
      · exact Or.inr ⟨by rw [← he1, h2], by simp [List.ne_nil_of_mem hr]⟩
      · exact Or.inl ⟨r, hr, Or.inr ⟨he1, h2⟩⟩
    · have he1 : r.city_2 = other := by
        exact of_decide_eq_true h1
      rcases hinc.1 with h2 | h2
      · exact Or.inl ⟨r, hr, Or.inl ⟨h2, he1⟩⟩
      · exact Or.inr ⟨by rw [← he1, h2], by simp [List.ne_nil_of_mem hr]⟩
  · rintro (⟨r, hr, hcon⟩ | ⟨rfl, hne⟩)
    · refine ⟨r, hr, ?_⟩
      rcases hcon with ⟨h1, h2⟩ | ⟨h1, h2⟩
      · simp [h2]
      · simp [h1]
    · obtain ⟨r, hr⟩ := List.exists_mem_of_ne_nil cd.roads hne
      refine ⟨r, hr, ?_⟩
      have hinc := hlists (other, cd) hc r hr
      rcases hinc.1 with h2 | h2
      · simp [h2]
      · simp [h2]

/-- Witness for C8_amended at mapAB, city A, query B. -/
theorem C8_amended_witness :
    mapAB.WF ∧ ("A", cdA) ∈ mapAB.cities ∧
      (cdA.has_road_to "B" = true ↔
        ((∃ r ∈ cdA.roads, r.connects "A" "B") ∨ ("B" = "A" ∧ cdA.roads ≠ []))) :=
  ⟨by decide, by decide, C8_amended mapAB "A" cdA (by decide) (by decide) "B"⟩

/-! ## Claims about Map.create_road -/

/-- A successful alookup yields a member of the list. -/
theorem alookup_mem {κ β : Type} [DecidableEq κ] (l : List (κ × β)) (k : κ) (v : β)
    (h : alookup l k = some v) : (k, v) ∈ l := by
  induction l with
  | nil => simp [alookup] at h
  | cons hd t ih =>
    obtain ⟨k1, v1⟩ := hd
    by_cases hk : k = k1
    · subst hk
      simp [alookup] at h
      subst h
      exact List.mem_cons_self _ _
    · simp only [alookup, if_neg hk] at h
      exact List.mem_cons_of_mem _ (ih h)

/-- On a well-formed map, the duplicate check of Road.__init__ (the scan
of the road list of the first city) answers exactly whether some
registered road connects the two distinct cities, in either endpoint
order. -/
theorem cityHasRoadTo_iff {α : Type} (m : Map α) (n1 n2 : String) (hm : m.WF)
    (hne : n1 ≠ n2) (hp : (m.city n1).isSome) :
    m.cityHasRoadTo n1 n2 = true ↔ ∃ r ∈ m.roads, r.connects n1 n2 := by
  obtain ⟨hnod, hroads, hlists, hback⟩ := hm
  obtain ⟨cd, hcd⟩ := Option.isSome_iff_exists.mp hp
  have hmem : (n1, cd) ∈ m.cities := alookup_mem m.cities n1 cd hcd
  unfold Map.cityHasRoadTo
  rw [hcd]
  unfold CityData.has_road_to
  rw [List.any_eq_true]
  constructor
  · rintro ⟨r, hr, hend⟩
    have hinc := hlists (n1, cd) hmem r hr
    refine ⟨r, hinc.2, ?_⟩
    rcases Bool.or_eq_true_iff.mp hend with h1 | h1
    · have he1 : r.city_1 = n2 := of_decide_eq_true h1
      rcases hinc.1 with h2 | h2
      · exact absurd (he1 ▸ h2) (Ne.symm hne)
      · exact Or.inr ⟨he1, h2⟩
    · have he1 : r.city_2 = n2 := of_decide_eq_true h1
      rcases hinc.1 with h2 | h2
      · exact Or.inl ⟨h2, he1⟩
      · exact absurd (he1 ▸ h2) (Ne.symm hne)
  · rintro ⟨r, hr, hcon⟩
    have hinc : r.city_1 = n1 ∨ r.city_2 = n1 := by
      rcases hcon with ⟨h1, h2⟩ | ⟨h1, h2⟩
      · exact Or.inl h1
      · exact Or.inr h2
    have hrl := hback r hr (n1, cd) hmem hinc
    refine ⟨r, hrl, ?_⟩
    rcases hcon with ⟨h1, h2⟩ | ⟨h1, h2⟩
    · simp [h2]
    · simp [h1]

/-- C7.  Map.create_road fails with the unknown-city error on the first
absent name, then with the same-city error when the two names coincide,
then with the duplicate error when a registered road already connects
the two cities in either endpoint order, and otherwise succeeds
returning the Road holding the two resolved endpoints in argument
order. -/
theorem C7_create_road_cases {α : Type} (m : Map α) (n1 n2 : String) (hm : m.WF) :
    (m.city n1 = none → (m.create_road n1 n2).2 = .error (.unknownCity n1)) ∧
    ((m.city n1).isSome → m.city n2 = none →
      (m.create_road n1 n2).2 = .error (.unknownCity n2)) ∧
    ((m.city n1).isSome → (m.city n2).isSome → n1 = n2 →
      (m.create_road n1 n2).2 = .error .sameCity) ∧
    ((m.city n1).isSome → (m.city n2).isSome → n1 ≠ n2 →
      (∃ r ∈ m.roads, r.connects n1 n2) →
      (m.create_road n1 n2).2 = .error .duplicateRoad) ∧
    ((m.city n1).isSome → (m.city n2).isSome → n1 ≠ n2 →
      (¬ ∃ r ∈ m.roads, r.connects n1 n2) →
      (m.create_road n1 n2).2 = .ok ⟨n1, n2⟩) := by
  refine ⟨?_, ?_, ?_, ?_, ?_⟩
  · intro h1
    unfold Map.create_road
    rw [h1]
  · intro h1 h2
    obtain ⟨cd1, hcd1⟩ := Option.isSome_iff_exists.mp h1
    unfold Map.create_road
    rw [hcd1, h2]
  · intro h1 h2 he
    obtain ⟨cd1, hcd1⟩ := Option.isSome_iff_exists.mp h1
    obtain ⟨cd2, hcd2⟩ := Option.isSome_iff_exists.mp h2
    unfold Map.create_road Road.init
    rw [hcd1, hcd2, if_pos he]
  · intro h1 h2 hne hdup
    obtain ⟨cd1, hcd1⟩ := Option.isSome_iff_exists.mp h1
    obtain ⟨cd2, hcd2⟩ := Option.isSome_iff_exists.mp h2
    have hd : m.cityHasRoadTo n1 n2 = true :=
      (cityHasRoadTo_iff m n1 n2 hm hne h1).mpr hdup
    unfold Map.create_road Road.init
    rw [hcd1, hcd2, if_neg hne, if_pos hd]
  · intro h1 h2 hne hdup
    obtain ⟨cd1, hcd1⟩ := Option.isSome_iff_exists.mp h1
    obtain ⟨cd2, hcd2⟩ := Option.isSome_iff_exists.mp h2
    have hd : ¬ m.cityHasRoadTo n1 n2 = true := by
      intro hc
      exact hdup ((cityHasRoadTo_iff m n1 n2 hm hne h1).mp hc)
    unfold Map.create_road Road.init
    rw [hcd1, hcd2, if_neg hne, if_neg hd]

/-- Witness for C7 at mapAB: all five cases exercised on concrete
inputs through the theorem itself. -/
theorem C7_create_road_cases_witness :
    (mapAB.create_road "Z" "B").2 = .error (.unknownCity "Z") ∧
    (mapAB.create_road "A" "Z").2 = .error (.unknownCity "Z") ∧
    (mapAB.create_road "A" "A").2 = .error .sameCity ∧
    (mapAB.create_road "B" "A").2 = .error .duplicateRoad ∧
    (mapAB.create_road "A" "B").2 = .error .duplicateRoad :=
  ⟨(C7_create_road_cases mapAB "Z" "B" (by decide)).1 (by decide),
   (C7_create_road_cases mapAB "A" "Z" (by decide)).2.1 (by decide) (by decide),
   (C7_create_road_cases mapAB "A" "A" (by decide)).2.2.1 (by decide) (by decide) rfl,
   (C7_create_road_cases mapAB "B" "A" (by decide)).2.2.2.1 (by decide) (by decide)
     (by decide) ⟨⟨"A", "B"⟩, by decide, by decide⟩,
   (C7_create_road_cases mapAB "A" "B" (by decide)).2.2.2.1 (by decide) (by decide)
     (by decide) ⟨⟨"A", "B"⟩, by decide, by decide⟩⟩

/-- C10.  Map.create_road is atomic on failure: whenever it returns an
error — unknown name, identical endpoints or duplicate road — the map
threaded through the call is returned exactly as it was passed in; the
road registration in the endpoint lists and in the map road list only
happens on the all-checks-passed path. -/
theorem C10_create_road_atomic {α : Type} (m : Map α) (n1 n2 : String) (e : Err)
    (h : (m.create_road n1 n2).2 = .error e) : (m.create_road n1 n2).1 = m := by
  unfold Map.create_road Road.init at h ⊢
  cases hc1 : m.city n1 with
  | none => rfl
  | some cd1 =>
    cases hc2 : m.city n2 with
    | none => rfl
    | some cd2 =>
      by_cases he : n1 = n2
      · rw [if_pos he]
      · rw [if_neg he]
        by_cases hd : m.cityHasRoadTo n1 n2 = true
        · rw [if_pos hd]
        · rw [if_neg hd]
          exfalso
          rw [hc1] at h
          rw [hc2] at h
          rw [if_neg he] at h
          rw [if_neg hd] at h
          simp at h

/-- Witness for C10: a duplicate-road failure on mapAB leaves the map
unchanged. -/
theorem C10_create_road_atomic_witness :
    (mapAB.create_road "B" "A").2 = .error .duplicateRoad ∧
    (mapAB.create_road "B" "A").1 = mapAB :=
  ⟨by decide, C10_create_road_atomic mapAB "B" "A" .duplicateRoad (by decide)⟩

/-! ## Claim C9: routing reads the map and never writes it -/

/-- The safe-cities helper returns the map it was given, in every
branch. -/
theorem safe_cities_fst {α : Type} (m : Map α) (o d : String) :
    (safe_cities m o d).1 = m := by
  unfold safe_cities
  cases m.city o with
  | none => rfl
  | some cd1 =>
    cases m.city d with
    | none => rfl
    | some cd2 => rfl

/-- C9.  None of the three routing functions mutates the Map: the map
threaded through each call comes back exactly as passed, whether the
call resolves both names and produces a result, fails on an unknown
name, or stops on exhausted fuel.  Every inner loop receives the map as
a read-only value, mirroring the source, whose statements only read
map_.cities, city.roads, road endpoints and coordinates. -/
theorem C9_routing_never_mutates_the_map {α : Type} [LinearOrderedCommRing α] (sq : α → α)
    (fuel : Nat) (m : Map α) (o d : String) :
    (shortest_path_dijkstra_original sq m o d).1 = m ∧
    (shortest_path_dijkstra_priority_queue sq fuel m o d).1 = m ∧
    (shortest_path_a_star sq fuel m o d).1 = m := by
  have hs := safe_cities_fst m o d
  refine ⟨?_, ?_, ?_⟩
  · unfold shortest_path_dijkstra_original
    rcases hsc : safe_cities m o d with ⟨m1, r⟩
    have hm1 : m1 = m := by
      rw [hsc] at hs
      exact hs
    cases r with
    | error e => simpa using hm1
    | ok p =>
      obtain ⟨oc, dc⟩ := p
      simp only
      cases dijkstra_loop sq m1 dc
          ((m1.cities.map Prod.fst).length + 1) (m1.cities.map Prod.fst)
          ((m1.cities.map Prod.fst).map
            (fun c => (c, if c = oc then (0 : WithTop α) else ⊤))) [] with
      | error e => simpa using hm1
      | ok p1 =>
        obtain ⟨cost1, prev1⟩ := p1
        simpa using hm1
  · unfold shortest_path_dijkstra_priority_queue
    rcases hsc : safe_cities m o d with ⟨m1, r⟩
    have hm1 : m1 = m := by
      rw [hsc] at hs
      exact hs
    cases r with
    | error e => simpa using hm1
    | ok p =>
      obtain ⟨oc, dc⟩ := p
      simp only
      rcases dijkstra_pq_init oc (m1.cities.map Prod.fst) with ⟨cost, pq⟩
      cases dijkstra_pq_loop sq m1 dc fuel cost [] pq with
      | error e => simpa using hm1
      | ok p1 =>
        obtain ⟨cost1, prev1⟩ := p1
        simpa using hm1
  · unfold shortest_path_a_star
    rcases hsc : safe_cities m o d with ⟨m1, r⟩
    have hm1 : m1 = m := by
      rw [hsc] at hs
      exact hs
    cases r with
    | error e => simpa using hm1
    | ok p =>
      obtain ⟨oc, dc⟩ := p
      simp only
      cases a_star_loop sq m1 dc fuel (a_star_init sq m1 oc dc) with
      | error e => simpa using hm1
      | ok st => simpa using hm1

/-! ## Supporting lemmas on pyMin, heapPop and the queue initialiser -/

theorem pyMin_mem {β : Type} [LinearOrder β] (key : String → β) (b : String) (l : List String) :
    pyMin key b l ∈ b :: l := by
  induction l generalizing b with
  | nil => simp [pyMin]
  | cons c cs ih =>
    have hstep : pyMin key b (c :: cs) = pyMin key (if key c < key b then c else b) cs := rfl
    rw [hstep]
    have hm := ih (if key c < key b then c else b)
    rcases List.mem_cons.mp hm with h1 | h1
    · rw [h1]
      by_cases h : key c < key b
      · rw [if_pos h]
        exact List.mem_cons_of_mem _ (List.mem_cons_self _ _)
      · rw [if_neg h]
        exact List.mem_cons_self _ _
    · exact List.mem_cons_of_mem _ (List.mem_cons_of_mem _ h1)

theorem pyMin_le {β : Type} [LinearOrder β] (key : String → β) (b : String) (l : List String) :
    ∀ x ∈ b :: l, key (pyMin key b l) ≤ key x := by
  induction l generalizing b with
  | nil =>
    intro x hx
    have hx1 : x = b := by simpa using hx
    subst hx1
    simp [pyMin]
  | cons c cs ih =>
    intro x hx
    have hstep : pyMin key b (c :: cs) = pyMin key (if key c < key b then c else b) cs := rfl
    rw [hstep]
    have hhead := ih (if key c < key b then c else b) (if key c < key b then c else b)
      (List.mem_cons_self _ _)
    have hble : key (pyMin key (if key c < key b then c else b) cs) ≤ key b := by
      by_cases h : key c < key b
      · rw [if_pos h] at hhead ⊢
        exact le_trans hhead (le_of_lt h)
      · rw [if_neg h] at hhead ⊢
        exact hhead
    have hcle : key (pyMin key (if key c < key b then c else b) cs) ≤ key c := by
      by_cases h : key c < key b
      · rw [if_pos h] at hhead ⊢
        exact hhead
      · rw [if_neg h] at hhead ⊢
        exact le_trans hhead (le_of_not_lt h)
    rcases List.mem_cons.mp hx with h1 | h1
    · exact h1 ▸ hble
    · rcases List.mem_cons.mp h1 with h2 | h2
      · exact h2 ▸ hcle
      · exact ih _ x (List.mem_cons_of_mem _ h2)

theorem entryLE_refl {P V : Type} [LinearOrder P] (a : PQEntry P V) : entryLE a a :=
  Or.inr ⟨rfl, le_rfl⟩

theorem entryLE_trans {P V : Type} [LinearOrder P] {a b c : PQEntry P V}
    (h1 : entryLE a b) (h2 : entryLE b c) : entryLE a c := by
  rcases h1 with h1 | ⟨h1, h1c⟩
  · rcases h2 with h2 | ⟨h2, h2c⟩
    · exact Or.inl (lt_trans h1 h2)
    · exact Or.inl (h2 ▸ h1)
  · rcases h2 with h2 | ⟨h2, h2c⟩
    · exact Or.inl (h1 ▸ h2)
    · exact Or.inr ⟨h1.trans h2, le_trans h1c h2c⟩

theorem entryLE_of_not {P V : Type} [LinearOrder P] {a b : PQEntry P V}
    (h : ¬ entryLE a b) : entryLE b a := by
  unfold entryLE at h ⊢
  push_neg at h
  obtain ⟨h1, h2⟩ := h
  rcases lt_or_eq_of_le h1 with h3 | h3
  · exact Or.inl h3
  · exact Or.inr ⟨h3, le_of_lt (h2 h3.symm)⟩

theorem heapPop_eq_none_iff {P V : Type} [LinearOrder P] (l : List (PQEntry P V)) :
    heapPop l = none ↔ l = [] := by
  cases l with
  | nil => simp [heapPop]
  | cons e es =>
    simp only [heapPop]
    cases heapPop es with
    | none => simp
    | some p =>
      obtain ⟨m, rest⟩ := p
      by_cases h : entryLE e m
      · simp [h]
      · simp [h]

theorem heapPop_spec {P V : Type} [LinearOrder P] (l : List (PQEntry P V))
    (e : PQEntry P V) (rest : List (PQEntry P V)) (h : heapPop l = some (e, rest)) :
    e ∈ l ∧ (∀ x ∈ l, entryLE e x) ∧ l.Perm (e :: rest) := by
  induction l generalizing e rest with
  | nil => simp [heapPop] at h
  | cons a as ih =>
    simp only [heapPop] at h
    split at h
    next hrec =>
      have has : as = [] := (heapPop_eq_none_iff as).mp hrec
      simp only [Option.some.injEq, Prod.mk.injEq] at h
      obtain ⟨he, hrest⟩ := h
      subst he
      subst has
      refine ⟨List.mem_cons_self _ _, ?_, ?_⟩
      · intro x hx
        rcases List.mem_cons.mp hx with h1 | h1
        · exact h1 ▸ entryLE_refl _
        · cases h1
      · rw [← hrest]
    next m mrest hrec =>
      obtain ⟨hm, hmin, hperm⟩ := ih m mrest hrec
      by_cases hle : entryLE a m
      · rw [if_pos hle] at h
        simp only [Option.some.injEq, Prod.mk.injEq] at h
        obtain ⟨he, hrest⟩ := h
        subst he
        subst hrest
        refine ⟨List.mem_cons_self _ _, ?_, List.Perm.refl _⟩
        intro x hx
        rcases List.mem_cons.mp hx with h1 | h1
        · exact h1 ▸ entryLE_refl _
        · exact entryLE_trans hle (hmin x h1)
      · rw [if_neg hle] at h
        simp only [Option.some.injEq, Prod.mk.injEq] at h
        obtain ⟨he, hrest⟩ := h
        subst he
        subst hrest
        refine ⟨List.mem_cons_of_mem _ hm, ?_, ?_⟩
        · intro x hx
          rcases List.mem_cons.mp hx with h1 | h1
          · exact h1 ▸ entryLE_of_not hle
          · exact hmin x h1
        · exact (List.Perm.cons a hperm).trans (List.Perm.swap m a mrest)

theorem alookup_append_of_none {κ β : Type} [DecidableEq κ] (l1 l2 : List (κ × β)) (k : κ)
    (h : alookup l1 k = none) : alookup (l1 ++ l2) k = alookup l2 k := by
  induction l1 with
  | nil => simp
  | cons hd t ih =>
    obtain ⟨k1, v1⟩ := hd
    by_cases hk : k = k1
    · simp [alookup, hk] at h
    · simp only [alookup, if_neg hk] at h
      simpa [alookup, if_neg hk] using ih h

/-- The heap entries produced by the initialisation loop of the
priority-queue Dijkstra, pushed for the listed cities starting at the
given sequence count. -/
def pqInitEntries {α : Type} [LinearOrderedCommRing α] (origin : String) :
    Nat → List String → List (PQEntry (WithTop α) String)
  | _, [] => []
  | k, c :: cs =>
    ⟨if c = origin then 0 else ⊤, k, Slot.val c⟩ :: pqInitEntries origin (k+1) cs

/-- The entries dict produced by the same loop. -/
def pqInitPairs : Nat → List String → List (String × Nat)
  | _, [] => []
  | k, c :: cs => (c, k) :: pqInitPairs (k+1) cs

theorem dijkstra_pq_init_fold {α : Type} [LinearOrderedCommRing α] (origin : String)
    (cs : List String) :
    ∀ (cost0 : List (String × WithTop α)) (pq0 : PriorityQueue (WithTop α) String),
      (∀ c ∈ cs, alookup pq0.entries c = none) → cs.Nodup →
      cs.foldl
          (fun acc c =>
            let v : WithTop α := if c = origin then 0 else ⊤
            (acc.1 ++ [(c, v)], acc.2.push c v))
          (cost0, pq0) =
        (cost0 ++ cs.map (fun c => (c, if c = origin then (0 : WithTop α) else ⊤)),
          { queue := pq0.queue ++ pqInitEntries origin pq0.counter cs,
            entries := pq0.entries ++ pqInitPairs pq0.counter cs,
            counter := pq0.counter + cs.length }) := by
  induction cs with
  | nil =>
    intro cost0 pq0 hfresh hnd
    simp [pqInitEntries, pqInitPairs]
  | cons c cs ih =>
    intro cost0 pq0 hfresh hnd
    have hc : alookup pq0.entries c = none := hfresh c (List.mem_cons_self _ _)
    have hpush : pq0.push c (if c = origin then (0 : WithTop α) else ⊤) =
        { queue := pq0.queue ++ [⟨if c = origin then 0 else ⊤, pq0.counter, Slot.val c⟩],
          entries := pq0.entries ++ [(c, pq0.counter)],
          counter := pq0.counter + 1 } := by
      unfold PriorityQueue.push
      rw [hc]
      rfl
    have hfresh1 : ∀ c1 ∈ cs,
        alookup (pq0.entries ++ [(c, pq0.counter)]) c1 = none := by
      intro c1 hc1
      have hne : c1 ≠ c := by
        intro he
        subst he
        exact (List.nodup_cons.mp hnd).1 hc1
      rw [alookup_append_of_none _ _ _ (hfresh c1 (List.mem_cons_of_mem _ hc1))]
      simp [alookup, hne]
    have hnd1 : cs.Nodup := (List.nodup_cons.mp hnd).2
    simp only [List.foldl_cons, hpush]
    rw [ih (cost0 ++ [(c, if c = origin then (0 : WithTop α) else ⊤)]) _ hfresh1 hnd1]
    simp [pqInitEntries, pqInitPairs, List.append_assoc, Nat.add_assoc, Nat.add_comm 1 _]

/-! ## Claim C4: routing a city to itself -/

theorem safe_cities_ok_self {α : Type} (m : Map α) (o : String) (cd : CityData α)
    (hcd : m.city o = some cd) : safe_cities m o o = (m, .ok (o, o)) := by
  unfold safe_cities
  rw [hcd]

/-- The top element is never below the zero cost. -/
theorem not_top_le_zero_withTop {α : Type} [LinearOrderedCommRing α] :
    ¬ ((⊤ : WithTop α) ≤ (0 : WithTop α)) :=
  WithTop.not_top_le_coe (0 : α)

/-- The top element is not the zero cost. -/
theorem top_ne_zero_withTop {α : Type} [LinearOrderedCommRing α] :
    (⊤ : WithTop α) ≠ (0 : WithTop α) :=
  WithTop.top_ne_coe (a := (0 : α))

/-- Python min over keys that are zero at the origin and infinite
elsewhere picks the origin. -/
theorem pyMin_zero_unique {α : Type} [LinearOrderedCommRing α] (key : String → WithTop α)
    (u o : String) (us : List String) (hmem : o ∈ u :: us)
    (hkey : ∀ c ∈ u :: us, key c = if c = o then 0 else ⊤) :
    pyMin key u us = o := by
  by_contra hne
  have hrmem := pyMin_mem key u us
  have hrle := pyMin_le key u us o hmem
  rw [hkey _ hrmem, hkey o hmem, if_pos rfl, if_neg hne] at hrle
  exact not_top_le_zero_withTop hrle

theorem dijO_self {α : Type} [LinearOrderedCommRing α] (sq : α → α) (m : Map α)
    (o : String) (hm : m.WF) (cd : CityData α) (hcd : m.city o = some cd) :
    (shortest_path_dijkstra_original sq m o o).2 = .ok ([o], (0 : WithTop α)) := by
  have hmem : o ∈ m.cities.map Prod.fst := by
    rw [← alookup_isSome_iff]
    unfold Map.city at hcd
    rw [hcd]
    rfl
  unfold shortest_path_dijkstra_original
  rw [safe_cities_ok_self m o cd hcd]
  cases hcities : m.cities.map Prod.fst with
  | nil =>
    rw [hcities] at hmem
    cases hmem
  | cons u us =>
    rw [hcities] at hmem
    have hkey : ∀ c ∈ u :: us,
        ((alookup ((u :: us).map (fun c => (c, if c = o then (0 : WithTop α) else ⊤))) c).getD ⊤)
          = (if c = o then (0 : WithTop α) else ⊤) := by
      intro c hc
      rw [alookup_map_self _ _ _ hc]
      rfl
    have hco : pyMin (fun c =>
        (alookup ((u :: us).map (fun c => (c, if c = o then (0 : WithTop α) else ⊤))) c).getD ⊤)
        u us = o := by
      refine pyMin_zero_unique _ u o us hmem ?_
      intro c hc
      show (alookup ((u :: us).map (fun c => (c, if c = o then (0 : WithTop α) else ⊤))) c).getD ⊤
        = _
      rw [alookup_map_self _ _ _ hc]
      rfl
    have hloop : dijkstra_loop sq m o ((u :: us).length + 1) (u :: us)
        ((u :: us).map (fun c => (c, if c = o then (0 : WithTop α) else ⊤))) [] =
        .ok ((u :: us).map (fun c => (c, if c = o then (0 : WithTop α) else ⊤)), []) := by
      simp only [dijkstra_loop]
      rw [hco]
      simp
    simp only [hcities, hloop]
    unfold results
    simp [alookup]

theorem dijPQ_self {α : Type} [LinearOrderedCommRing α] (sq : α → α) (m : Map α)
    (o : String) (hm : m.WF) (cd : CityData α) (hcd : m.city o = some cd) (fuel : Nat)
    (hfuel : 1 ≤ fuel) :
    (shortest_path_dijkstra_priority_queue sq fuel m o o).2 = .ok ([o], (0 : WithTop α)) := by
  have hmem : o ∈ m.cities.map Prod.fst := by
    rw [← alookup_isSome_iff]
    unfold Map.city at hcd
    rw [hcd]
    rfl
  obtain ⟨f, rfl⟩ : ∃ f, fuel = f + 1 := ⟨fuel - 1, by omega⟩
  unfold shortest_path_dijkstra_priority_queue
  rw [safe_cities_ok_self m o cd hcd]
  have hinit := dijkstra_pq_init_fold (α := α) o (m.cities.map Prod.fst) []
    PriorityQueue.empty (by intro c hc; rfl) hm.1
  cases hcities : m.cities.map Prod.fst with
  | nil =>
    rw [hcities] at hmem
    cases hmem
  | cons u us =>
    rw [hcities] at hmem hinit
    unfold dijkstra_pq_init
    simp only [PriorityQueue.empty] at hinit
    simp only [hcities, PriorityQueue.empty]
    rw [hinit]
    simp only [List.nil_append]
    -- the initial queue and entries
    have hqne : pqInitEntries (α := α) o 0 (u :: us) ≠ [] := by
      simp [pqInitEntries]
    obtain ⟨p, hp⟩ : ∃ p, heapPop (pqInitEntries (α := α) o 0 (u :: us)) = some p := by
      cases hh : heapPop (pqInitEntries (α := α) o 0 (u :: us)) with
      | none => exact absurd ((heapPop_eq_none_iff _).mp hh) hqne
      | some p => exact ⟨p, rfl⟩
    obtain ⟨e, q1⟩ := p
    obtain ⟨hein, hmin, hperm⟩ := heapPop_spec _ _ _ hp
    -- every initial entry is live with the initial cost of its city
    have hshape : ∀ (k : Nat) (cs : List String),
        ∀ x ∈ pqInitEntries (α := α) o k cs,
          ∃ c ∈ cs, x.slot = Slot.val c ∧ x.priority = (if c = o then 0 else ⊤) := by
      intro k cs
      induction cs generalizing k with
      | nil => intro x hx; cases hx
      | cons c1 cs1 ih =>
        intro x hx
        rcases List.mem_cons.mp hx with h1 | h1
        · exact ⟨c1, List.mem_cons_self _ _, by rw [h1], by rw [h1]⟩
        · obtain ⟨c2, hc2, hs, hpr⟩ := ih (k+1) x h1
          exact ⟨c2, List.mem_cons_of_mem _ hc2, hs, hpr⟩
    have hoentry : ∀ (k : Nat) (cs : List String), o ∈ cs →
        ∃ x ∈ pqInitEntries (α := α) o k cs, x.slot = Slot.val o ∧ x.priority = 0 := by
      intro k cs
      induction cs generalizing k with
      | nil => intro hx; cases hx
      | cons c1 cs1 ih =>
        intro hx
        rcases List.mem_cons.mp hx with h1 | h1
        · refine ⟨⟨if c1 = o then 0 else ⊤, k, Slot.val c1⟩, List.mem_cons_self _ _, ?_, ?_⟩
          · rw [h1]
          · rw [if_pos h1.symm]
        · obtain ⟨x, hxm, hs, hpr⟩ := ih (k+1) h1
          exact ⟨x, List.mem_cons_of_mem _ hxm, hs, hpr⟩
    obtain ⟨xo, hxo, hxs, hxp⟩ := hoentry 0 (u :: us) hmem
    obtain ⟨ce, hce, hes, hep⟩ := hshape 0 (u :: us) e hein
    have heo : e.slot = Slot.val o ∧ e.priority = 0 := by
      by_cases hceo : ce = o
      · subst hceo
        rw [if_pos rfl] at hep
        exact ⟨hes, hep⟩
      · exfalso
        rw [if_neg hceo] at hep
        have hle := hmin xo hxo
        rcases hle with h1 | ⟨h1, h2⟩
        · rw [hep, hxp] at h1
          exact not_top_le_zero_withTop (le_of_lt h1)
        · rw [hep, hxp] at h1
          exact top_ne_zero_withTop h1
    -- the pop of the initial queue returns the origin
    have hpop : PriorityQueue.pop
        (⟨pqInitEntries (α := α) o 0 (u :: us), pqInitPairs 0 (u :: us),
          0 + (u :: us).length⟩ : PriorityQueue (WithTop α) String) =
        .ok (o, ⟨q1, aerase (pqInitPairs 0 (u :: us)) o, 0 + (u :: us).length⟩) := by
      unfold PriorityQueue.pop
      have hlen : (pqInitEntries (α := α) o 0 (u :: us)).length =
          (pqInitEntries (α := α) o 1 us).length + 1 := by
        simp [pqInitEntries]
      simp only [hlen, popAux, hp, heo.1]
    simp only [dijkstra_pq_loop]
    have hne2 : (pqInitPairs 0 (u :: us)).isEmpty = false := by
      simp [pqInitPairs]
    rw [hne2]
    simp only [Bool.false_eq_true, if_false, hpop, if_pos rfl]
    unfold results
    simp [alookup]

theorem aStar_self {α : Type} [LinearOrderedCommRing α] (sq : α → α) (m : Map α)
    (o : String) (cd : CityData α) (hcd : m.city o = some cd) (fuel : Nat)
    (hfuel : 1 ≤ fuel) :
    (shortest_path_a_star sq fuel m o o).2 = .ok ([o], (0 : WithTop α)) := by
  obtain ⟨f, rfl⟩ : ∃ f, fuel = f + 1 := ⟨fuel - 1, by omega⟩
  unfold shortest_path_a_star
  rw [safe_cities_ok_self m o cd hcd]
  unfold a_star_init
  simp only [PriorityQueue.push, PriorityQueue.empty, alookup, Option.isSome_none,
    Bool.false_eq_true, if_false]
  unfold a_star_loop
  simp only [List.isEmpty_cons, Bool.false_eq_true, if_false]
  unfold a_star_step PriorityQueue.pop
  simp only [List.length_cons, List.length_nil, popAux, heapPop, aerase, if_pos rfl]
  unfold results
  simp [alookup]

/-- C4.  For every well-formed Map and every city name o present in it,
each routing function called with origin o and destination o returns
exactly ([o], 0): the first popped (or linearly scanned) city is the
origin itself, the destination test fires immediately, and the shared
results helper answers the one-element path with cost 0.  The two
queue-driven variants need at least one unit of loop fuel. -/
theorem C4_route_origin_to_itself {α : Type} [LinearOrderedCommRing α] (sq : α → α)
    (m : Map α) (o : String) (hm : m.WF) (ho : (m.city o).isSome) :
    (shortest_path_dijkstra_original sq m o o).2 = .ok ([o], (0 : WithTop α)) ∧
    (∀ fuel, 1 ≤ fuel →
      (shortest_path_dijkstra_priority_queue sq fuel m o o).2 = .ok ([o], (0 : WithTop α))) ∧
    (∀ fuel, 1 ≤ fuel →
      (shortest_path_a_star sq fuel m o o).2 = .ok ([o], (0 : WithTop α))) := by
  obtain ⟨cd, hcd⟩ := Option.isSome_iff_exists.mp ho
  exact ⟨dijO_self sq m o hm cd hcd,
    fun fuel hf => dijPQ_self sq m o hm cd hcd fuel hf,
    fun fuel hf => aStar_self sq m o cd hcd fuel hf⟩

/-- Witness for C4 on the two-city map. -/
theorem C4_route_origin_to_itself_witness :
    mapAB.WF ∧ (Map.city mapAB "A").isSome ∧
    (shortest_path_dijkstra_original intSqrt mapAB "A" "A").2 = .ok (["A"], (0 : WithTop ℤ)) ∧
    (shortest_path_dijkstra_priority_queue intSqrt 5 mapAB "A" "A").2 =
      .ok (["A"], (0 : WithTop ℤ)) ∧
    (shortest_path_a_star intSqrt 5 mapAB "A" "A").2 = .ok (["A"], (0 : WithTop ℤ)) :=
  ⟨by decide, by decide,
   (C4_route_origin_to_itself intSqrt mapAB "A" (by decide) (by decide)).1,
   (C4_route_origin_to_itself intSqrt mapAB "A" (by decide) (by decide)).2.1 5 (by decide),
   (C4_route_origin_to_itself intSqrt mapAB "A" (by decide) (by decide)).2.2 5 (by decide)⟩

/-! ## Claim C5: unreachable destinations -/

/-- A road taken from the road list of city c whose other end resolves
to n witnesses adjacency in the map. -/
theorem adj_of_otherEnd {α : Type} (m : Map α) (hm : m.WF) (c n : String) (r : Road)
    (hr : r ∈ m.roadsOf c) (he : r.other_end c = .ok n) : m.Adj c n := by
  unfold Map.roadsOf at hr
  cases hc : m.city c with
  | none =>
    rw [hc] at hr
    cases hr
  | some cdc =>
    rw [hc] at hr
    have hmem := alookup_mem m.cities c cdc hc
    have hrm : r ∈ m.roads := (hm.2.2.1 (c, cdc) hmem r hr).2
    unfold Road.other_end at he
    by_cases h1 : c = r.city_1
    · rw [if_pos h1] at he
      simp only [Except.ok.injEq] at he
      exact ⟨r, hrm, Or.inl ⟨h1.symm, he⟩⟩
    · rw [if_neg h1] at he
      by_cases h2 : c = r.city_2
      · rw [if_pos h2] at he
        simp only [Except.ok.injEq] at he
        exact ⟨r, hrm, Or.inr ⟨he, h2.symm⟩⟩
      · rw [if_neg h2] at he
        cases he

/-- Values stored in an initialiser-shaped association list are given by
the generating function. -/
theorem alookup_map_val {κ β : Type} [DecidableEq κ] (f : κ → β) (l : List κ) (k : κ) (v : β)
    (h : alookup (l.map (fun c => (c, f c))) k = some v) : v = f k := by
  induction l with
  | nil => simp [alookup] at h
  | cons c cs ih =>
    by_cases hk : k = c
    · subst hk
      simp [alookup] at h
      exact h.symm
    · simp only [List.map_cons, alookup, if_neg hk] at h
      exact ih h

/-- Updating one key keeps every present key present. -/
theorem alookup_aupdate_isSome {κ β : Type} [DecidableEq κ] (l : List (κ × β)) (k k2 : κ)
    (v : β) (h : (alookup l k).isSome) : (alookup (aupdate l k2 v) k).isSome := by
  by_cases hk : k = k2
  · subst hk
    rw [alookup_aupdate_self]
    rfl
  · rw [alookup_aupdate_ne _ _ _ _ hk]
    exact h

/-- The invariant of both Dijkstra variants: a finite recorded cost
certifies a chain of roads from the origin. -/
def costReachInv {α : Type} (m : Map α) (o : String)
    (cost : List (String × WithTop α)) : Prop :=
  ∀ c v, alookup cost c = some v → v ≠ ⊤ → m.Reachable o c

/-- A recorded previous link certifies a chain of roads from the
origin. -/
def prevReachInv {α : Type} (m : Map α) (o : String)
    (prev : List (String × String)) : Prop :=
  ∀ c p, alookup prev c = some p → m.Reachable o c

/-- The A-star invariant: any recorded g-score certifies a chain of
roads from the origin. -/
def gReachInv {α : Type} (m : Map α) (o : String)
    (g : List (String × WithTop α)) : Prop :=
  ∀ c v, alookup g c = some v → m.Reachable o c

theorem dijkstra_relax_inv {α : Type} [LinearOrderedCommRing α] (sq : α → α) (m : Map α)
    (o city : String) (hm : m.WF) :
    ∀ (rs : List Road) (cost : List (String × WithTop α)) (prev : List (String × String))
      (cost1 : List (String × WithTop α)) (prev1 : List (String × String)),
      (∀ r ∈ rs, r ∈ m.roadsOf city) →
      dijkstra_relax sq m city rs cost prev = .ok (cost1, prev1) →
      costReachInv m o cost → prevReachInv m o prev →
      costReachInv m o cost1 ∧ prevReachInv m o prev1 := by
  intro rs
  induction rs with
  | nil =>
    intro cost prev cost1 prev1 hrs h hc hp
    simp only [dijkstra_relax, Except.ok.injEq, Prod.mk.injEq] at h
    obtain ⟨h1, h2⟩ := h
    subst h1
    subst h2
    exact ⟨hc, hp⟩
  | cons r rs ih =>
    intro cost prev cost1 prev1 hrs h hc hp
    simp only [dijkstra_relax] at h
    cases he : r.other_end city with
    | error e =>
      simp only [he] at h
      cases h
    | ok n =>
      simp only [he] at h
      cases hcc : alookup cost city with
      | none =>
        simp only [hcc] at h
        cases h
      | some cc =>
        simp only [hcc] at h
        cases hcn : alookup cost n with
        | none =>
          simp only [hcn] at h
          cases h
        | some cn =>
          simp only [hcn] at h
          have hrs1 : ∀ r1 ∈ rs, r1 ∈ m.roadsOf city := fun r1 hr1 =>
            hrs r1 (List.mem_cons_of_mem _ hr1)
          by_cases hlt : cc + (↑(Road.lengthIn sq m r) : WithTop α) < cn
          · rw [if_pos hlt] at h
            have hnew_ne : cc + (↑(Road.lengthIn sq m r) : WithTop α) ≠ ⊤ := by
              intro he1
              rw [he1] at hlt
              exact WithTop.not_top_lt cn hlt
            have hcc_ne : cc ≠ ⊤ := by
              intro he1
              rw [he1] at hnew_ne
              exact hnew_ne (top_add _)
            have hreach_city : m.Reachable o city := hc city cc hcc hcc_ne
            have hadj : m.Adj city n :=
              adj_of_otherEnd m hm city n r (hrs r (List.mem_cons_self _ _)) he
            have hreach_n : m.Reachable o n :=
              Relation.ReflTransGen.tail hreach_city hadj
            refine ih _ _ _ _ hrs1 h ?_ ?_
            · intro c v hv hvne
              by_cases hcn2 : c = n
              · exact hcn2 ▸ hreach_n
              · rw [alookup_aupdate_ne _ _ _ _ hcn2] at hv
                exact hc c v hv hvne
            · intro c p hv
              by_cases hcn2 : c = n
              · exact hcn2 ▸ hreach_n
              · rw [alookup_aupdate_ne _ _ _ _ hcn2] at hv
                exact hp c p hv
          · rw [if_neg hlt] at h
            exact ih _ _ _ _ hrs1 h hc hp

theorem dijkstra_pq_relax_inv {α : Type} [LinearOrderedCommRing α] (sq : α → α) (m : Map α)
    (o city : String) (hm : m.WF) :
    ∀ (rs : List Road) (cost : List (String × WithTop α)) (prev : List (String × String))
      (pq : PriorityQueue (WithTop α) String)
      (cost1 : List (String × WithTop α)) (prev1 : List (String × String))
      (pq1 : PriorityQueue (WithTop α) String),
      (∀ r ∈ rs, r ∈ m.roadsOf city) →
      dijkstra_pq_relax sq m city rs cost prev pq = .ok (cost1, prev1, pq1) →
      costReachInv m o cost → prevReachInv m o prev →
      costReachInv m o cost1 ∧ prevReachInv m o prev1 := by
  intro rs
  induction rs with
  | nil =>
    intro cost prev pq cost1 prev1 pq1 hrs h hc hp
    simp only [dijkstra_pq_relax, Except.ok.injEq, Prod.mk.injEq] at h
    obtain ⟨h1, h2, h3⟩ := h
    subst h1
    subst h2
    exact ⟨hc, hp⟩
  | cons r rs ih =>
    intro cost prev pq cost1 prev1 pq1 hrs h hc hp
    simp only [dijkstra_pq_relax] at h
    cases he : r.other_end city with
    | error e =>
      simp only [he] at h
      cases h
    | ok n =>
      simp only [he] at h
      cases hcc : alookup cost city with
      | none =>
        simp only [hcc] at h
        cases h
      | some cc =>
        simp only [hcc] at h
        cases hcn : alookup cost n with
        | none =>
          simp only [hcn] at h
          cases h
        | some cn =>
          simp only [hcn] at h
          have hrs1 : ∀ r1 ∈ rs, r1 ∈ m.roadsOf city := fun r1 hr1 =>
            hrs r1 (List.mem_cons_of_mem _ hr1)
          by_cases hlt : cc + (↑(Road.lengthIn sq m r) : WithTop α) < cn
          · rw [if_pos hlt] at h
            have hnew_ne : cc + (↑(Road.lengthIn sq m r) : WithTop α) ≠ ⊤ := by
              intro he1
              rw [he1] at hlt
              exact WithTop.not_top_lt cn hlt
            have hcc_ne : cc ≠ ⊤ := by
              intro he1
              rw [he1] at hnew_ne
              exact hnew_ne (top_add _)
            have hreach_city : m.Reachable o city := hc city cc hcc hcc_ne
            have hadj : m.Adj city n :=
              adj_of_otherEnd m hm city n r (hrs r (List.mem_cons_self _ _)) he
            have hreach_n : m.Reachable o n :=
              Relation.ReflTransGen.tail hreach_city hadj
            refine ih _ _ _ _ _ _ hrs1 h ?_ ?_
            · intro c v hv hvne
              by_cases hcn2 : c = n
              · exact hcn2 ▸ hreach_n
              · rw [alookup_aupdate_ne _ _ _ _ hcn2] at hv
                exact hc c v hv hvne
            · intro c p hv
              by_cases hcn2 : c = n
              · exact hcn2 ▸ hreach_n
              · rw [alookup_aupdate_ne _ _ _ _ hcn2] at hv
                exact hp c p hv
          · rw [if_neg hlt] at h
            exact ih _ _ _ _ _ _ hrs1 h hc hp

theorem a_star_relax_inv {α : Type} [LinearOrderedCommRing α] (sq : α → α) (m : Map α)
    (o dest city : String) (hm : m.WF) :
    ∀ (rs : List Road) (st st1 : AState α),
      (∀ r ∈ rs, r ∈ m.roadsOf city) →
      a_star_relax sq m dest city rs st = .ok st1 →
      gReachInv m o st.gScore → prevReachInv m o st.prev →
      gReachInv m o st1.gScore ∧ prevReachInv m o st1.prev := by
  intro rs
  induction rs with
  | nil =>
    intro st st1 hrs h hg hp
    simp only [a_star_relax, Except.ok.injEq] at h
    subst h
    exact ⟨hg, hp⟩
  | cons r rs ih =>
    intro st st1 hrs h hg hp
    have hrs1 : ∀ r1 ∈ rs, r1 ∈ m.roadsOf city := fun r1 hr1 =>
      hrs r1 (List.mem_cons_of_mem _ hr1)
    simp only [a_star_relax] at h
    cases he : r.other_end city with
    | error e =>
      simp only [he] at h
      cases h
    | ok n =>
      simp only [he] at h
      by_cases hcl : n ∈ st.closed
      · rw [if_pos hcl] at h
        exact ih st st1 hrs1 h hg hp
      · rw [if_neg hcl] at h
        cases hgc : alookup st.gScore city with
        | none =>
          simp only [hgc] at h
          cases h
        | some gc =>
          simp only [hgc] at h
          have hreach_city : m.Reachable o city := hg city gc hgc
          have hadj : m.Adj city n :=
            adj_of_otherEnd m hm city n r (hrs r (List.mem_cons_self _ _)) he
          have hreach_n : m.Reachable o n :=
            Relation.ReflTransGen.tail hreach_city hadj
          have hupd : ∀ st2 : AState α,
              st2.gScore = aupdate st.gScore n (gc + (↑(Road.lengthIn sq m r) : WithTop α)) →
              st2.prev = aupdate st.prev n city →
              a_star_relax sq m dest city rs st2 = .ok st1 →
              gReachInv m o st1.gScore ∧ prevReachInv m o st1.prev := by
            intro st2 hst2g hst2p h2
            refine ih st2 st1 hrs1 h2 ?_ ?_
            · intro c v hv
              rw [hst2g] at hv
              by_cases hcn2 : c = n
              · exact hcn2 ▸ hreach_n
              · rw [alookup_aupdate_ne _ _ _ _ hcn2] at hv
                exact hg c v hv
            · intro c p hv
              rw [hst2p] at hv
              by_cases hcn2 : c = n
              · exact hcn2 ▸ hreach_n
              · rw [alookup_aupdate_ne _ _ _ _ hcn2] at hv
                exact hp c p hv
          by_cases hio : st.openSet.containsVal n = true
          · rw [if_pos hio] at h
            cases hgn : alookup st.gScore n with
            | none =>
              simp only [hgn] at h
              cases h
            | some gn =>
              simp only [hgn] at h
              cases hdec : decide (gc + (↑(Road.lengthIn sq m r) : WithTop α) < gn) with
              | false =>
                simp only [hdec] at h
                exact ih st st1 hrs1 h hg hp
              | true =>
                simp only [hdec] at h
                rw [if_pos hio] at h
                exact hupd _ rfl rfl h
          · rw [if_neg hio] at h
            rw [if_neg hio] at h
            exact hupd _ rfl rfl h

theorem dijkstra_loop_inv {α : Type} [LinearOrderedCommRing α] (sq : α → α) (m : Map α)
    (o dest : String) (hm : m.WF) :
    ∀ (fuel : Nat) (unvisited : List String) (cost : List (String × WithTop α))
      (prev : List (String × String)) (cost1 : List (String × WithTop α))
      (prev1 : List (String × String)),
      dijkstra_loop sq m dest fuel unvisited cost prev = .ok (cost1, prev1) →
      costReachInv m o cost → prevReachInv m o prev →
      costReachInv m o cost1 ∧ prevReachInv m o prev1 := by
  intro fuel
  induction fuel with
  | zero =>
    intro unvisited cost prev cost1 prev1 h hc hp
    cases h
  | succ f ih =>
    intro unvisited cost prev cost1 prev1 h hc hp
    cases unvisited with
    | nil =>
      simp only [dijkstra_loop, Except.ok.injEq, Prod.mk.injEq] at h
      obtain ⟨h1, h2⟩ := h
      subst h1
      subst h2
      exact ⟨hc, hp⟩
    | cons u us =>
      simp only [dijkstra_loop] at h
      by_cases hd : pyMin (fun c => (alookup cost c).getD ⊤) u us = dest
      · rw [if_pos hd] at h
        simp only [Except.ok.injEq, Prod.mk.injEq] at h
        obtain ⟨h1, h2⟩ := h
        subst h1
        subst h2
        exact ⟨hc, hp⟩
      · rw [if_neg hd] at h
        cases hrel : dijkstra_relax sq m (pyMin (fun c => (alookup cost c).getD ⊤) u us)
            (m.roadsOf (pyMin (fun c => (alookup cost c).getD ⊤) u us)) cost prev with
        | error e =>
          simp only [hrel] at h
          cases h
        | ok p =>
          obtain ⟨cost2, prev2⟩ := p
          simp only [hrel] at h
          have hinv2 := dijkstra_relax_inv sq m o
            (pyMin (fun c => (alookup cost c).getD ⊤) u us) hm
            (m.roadsOf (pyMin (fun c => (alookup cost c).getD ⊤) u us)) cost prev cost2 prev2
            (fun r hr => hr) hrel hc hp
          exact ih _ _ _ _ _ h hinv2.1 hinv2.2

theorem dijkstra_pq_loop_inv {α : Type} [LinearOrderedCommRing α] (sq : α → α) (m : Map α)
    (o dest : String) (hm : m.WF) :
    ∀ (fuel : Nat) (cost : List (String × WithTop α)) (prev : List (String × String))
      (pq : PriorityQueue (WithTop α) String) (cost1 : List (String × WithTop α))
      (prev1 : List (String × String)),
      dijkstra_pq_loop sq m dest fuel cost prev pq = .ok (cost1, prev1) →
      costReachInv m o cost → prevReachInv m o prev →
      costReachInv m o cost1 ∧ prevReachInv m o prev1 := by
  intro fuel
  induction fuel with
  | zero =>
    intro cost prev pq cost1 prev1 h hc hp
    cases h
  | succ f ih =>
    intro cost prev pq cost1 prev1 h hc hp
    simp only [dijkstra_pq_loop] at h
    by_cases hemp : pq.entries.isEmpty = true
    · rw [if_pos hemp] at h
      simp only [Except.ok.injEq, Prod.mk.injEq] at h
      obtain ⟨h1, h2⟩ := h
      subst h1
      subst h2
      exact ⟨hc, hp⟩
    · rw [if_neg hemp] at h
      cases hpop : pq.pop with
      | error e =>
        simp only [hpop] at h
        cases h
      | ok p =>
        obtain ⟨city, pq1⟩ := p
        simp only [hpop] at h
        by_cases hd : city = dest
        · rw [if_pos hd] at h
          simp only [Except.ok.injEq, Prod.mk.injEq] at h
          obtain ⟨h1, h2⟩ := h
          subst h1
          subst h2
          exact ⟨hc, hp⟩
        · rw [if_neg hd] at h
          cases hrel : dijkstra_pq_relax sq m city (m.roadsOf city) cost prev pq1 with
          | error e =>
            simp only [hrel] at h
            cases h
          | ok p2 =>
            obtain ⟨cost2, prev2, pq2⟩ := p2
            simp only [hrel] at h
            have hinv2 := dijkstra_pq_relax_inv sq m o city hm (m.roadsOf city)
              cost prev pq1 cost2 prev2 pq2 (fun r hr => hr) hrel hc hp
            exact ih _ _ _ _ _ h hinv2.1 hinv2.2

theorem a_star_loop_inv {α : Type} [LinearOrderedCommRing α] (sq : α → α) (m : Map α)
    (o dest : String) (hm : m.WF) :
    ∀ (fuel : Nat) (st st1 : AState α),
      a_star_loop sq m dest fuel st = .ok st1 →
      gReachInv m o st.gScore → prevReachInv m o st.prev →
      gReachInv m o st1.gScore ∧ prevReachInv m o st1.prev := by
  intro fuel
  induction fuel with
  | zero =>
    intro st st1 h hg hp
    cases h
  | succ f ih =>
    intro st st1 h hg hp
    simp only [a_star_loop] at h
    by_cases hemp : st.openSet.entries.isEmpty = true
    · rw [if_pos hemp] at h
      simp only [Except.ok.injEq] at h
      subst h
      exact ⟨hg, hp⟩
    · rw [if_neg hemp] at h
      cases hstep : a_star_step sq m dest st with
      | error e =>
        simp only [hstep] at h
        cases h
      | ok res =>
        simp only [hstep] at h
        simp only [a_star_step] at hstep
        cases hpop : st.openSet.pop with
        | error e =>
          simp only [hpop] at hstep
          cases hstep
        | ok p =>
          obtain ⟨city, open1⟩ := p
          simp only [hpop] at hstep
          by_cases hd : city = dest
          · rw [if_pos hd] at hstep
            simp only [Except.ok.injEq] at hstep
            subst hstep
            simp only [Except.ok.injEq] at h
            subst h
            exact ⟨hg, hp⟩
          · rw [if_neg hd] at hstep
            cases hrel : a_star_relax sq m dest city (m.roadsOf city)
                { st with openSet := open1, closed := st.closed ++ [city] } with
            | error e =>
              simp only [hrel] at hstep
              cases hstep
            | ok st2 =>
              simp only [hrel, Except.ok.injEq] at hstep
              subst hstep
              have hinv2 := a_star_relax_inv sq m o dest city hm (m.roadsOf city)
                { st with openSet := open1, closed := st.closed ++ [city] } st2
                (fun r hr => hr) hrel hg hp
              exact ih _ _ h hinv2.1 hinv2.2

theorem dijkstra_relax_ok {α : Type} [LinearOrderedCommRing α] (sq : α → α) (m : Map α)
    (city : String) (hm : m.WF) :
    ∀ (rs : List Road) (cost : List (String × WithTop α)) (prev : List (String × String)),
      (∀ r ∈ rs, r ∈ m.roadsOf city) →
      (m.city city).isSome →
      (∀ c, (m.city c).isSome → (alookup cost c).isSome) →
      ∃ cost1 prev1, dijkstra_relax sq m city rs cost prev = .ok (cost1, prev1) ∧
        (∀ c, (m.city c).isSome → (alookup cost1 c).isSome) := by
  intro rs
  induction rs with
  | nil =>
    intro cost prev hrs hcity hkeys
    exact ⟨cost, prev, rfl, hkeys⟩
  | cons r rs ih =>
    intro cost prev hrs hcity hkeys
    have hr := hrs r (List.mem_cons_self _ _)
    obtain ⟨cd, hcd⟩ := Option.isSome_iff_exists.mp hcity
    have hrcd : r ∈ cd.roads := by
      unfold Map.roadsOf at hr
      rw [hcd] at hr
      exact hr
    have hmem := alookup_mem m.cities city cd hcd
    have hinc := hm.2.2.1 (city, cd) hmem r hrcd
    have hends := hm.2.1 r hinc.2
    have hoe : ∃ n, r.other_end city = .ok n ∧ (m.city n).isSome := by
      unfold Road.other_end
      by_cases h2 : city = r.city_1
      · rw [if_pos h2]
        exact ⟨r.city_2, rfl, hends.2.2⟩
      · have h1 : r.city_2 = city := by
          rcases hinc.1 with h3 | h3
          · exact absurd h3.symm h2
          · exact h3
        rw [if_neg h2, if_pos h1.symm]
        exact ⟨r.city_1, rfl, hends.2.1⟩
    obtain ⟨n, hoe1, hnp⟩ := hoe
    obtain ⟨cc, hcc⟩ := Option.isSome_iff_exists.mp (hkeys city hcity)
    obtain ⟨cn, hcn⟩ := Option.isSome_iff_exists.mp (hkeys n hnp)
    have hrs1 : ∀ r1 ∈ rs, r1 ∈ m.roadsOf city := fun r1 hr1 =>
      hrs r1 (List.mem_cons_of_mem _ hr1)
    simp only [dijkstra_relax, hoe1, hcc, hcn]
    by_cases hlt : cc + (↑(Road.lengthIn sq m r) : WithTop α) < cn
    · rw [if_pos hlt]
      refine ih _ _ hrs1 hcity ?_
      intro c hc
      exact alookup_aupdate_isSome _ _ _ _ (hkeys c hc)
    · rw [if_neg hlt]
      exact ih _ _ hrs1 hcity hkeys

theorem dijkstra_loop_ok {α : Type} [LinearOrderedCommRing α] (sq : α → α) (m : Map α)
    (dest : String) (hm : m.WF) :
    ∀ (fuel : Nat) (unvisited : List String) (cost : List (String × WithTop α))
      (prev : List (String × String)),
      unvisited.length < fuel →
      (∀ c ∈ unvisited, (m.city c).isSome) →
      (∀ c, (m.city c).isSome → (alookup cost c).isSome) →
      ∃ cost1 prev1, dijkstra_loop sq m dest fuel unvisited cost prev = .ok (cost1, prev1) := by
  intro fuel
  induction fuel with
  | zero =>
    intro unvisited cost prev hlt hpres hkeys
    omega
  | succ f ih =>
    intro unvisited cost prev hlt hpres hkeys
    cases unvisited with
    | nil => exact ⟨cost, prev, rfl⟩
    | cons u us =>
      simp only [dijkstra_loop]
      by_cases hd : pyMin (fun c => (alookup cost c).getD ⊤) u us = dest
      · rw [if_pos hd]
        exact ⟨cost, prev, rfl⟩
      · rw [if_neg hd]
        have hcmem := pyMin_mem (fun c => (alookup cost c).getD ⊤) u us
        have hcity := hpres _ hcmem
        obtain ⟨cost2, prev2, hrel, hkeys2⟩ := dijkstra_relax_ok sq m
          (pyMin (fun c => (alookup cost c).getD ⊤) u us) hm
          (m.roadsOf (pyMin (fun c => (alookup cost c).getD ⊤) u us)) cost prev
          (fun r hr => hr) hcity hkeys
        rw [hrel]
        refine ih _ _ _ ?_ ?_ hkeys2
        · have hlen := List.length_erase_of_mem hcmem
          rw [hlen]
          simp only [List.length_cons] at hlt ⊢
          omega
        · intro c hc
          exact hpres c (List.mem_of_mem_erase hc)

theorem safe_cities_ok {α : Type} (m : Map α) (o d : String) (cdo cdd : CityData α)
    (h1 : m.city o = some cdo) (h2 : m.city d = some cdd) :
    safe_cities m o d = (m, .ok (o, d)) := by
  unfold safe_cities
  rw [h1, h2]

theorem costReachInv_init {α : Type} [LinearOrderedCommRing α] (m : Map α) (o : String)
    (names : List String) :
    costReachInv m o (names.map (fun c => (c, if c = o then (0 : WithTop α) else ⊤))) := by
  intro c v hv hne
  have hvv := alookup_map_val _ _ _ _ hv
  by_cases hco : c = o
  · exact hco ▸ Relation.ReflTransGen.refl
  · rw [if_neg hco] at hvv
    exact absurd hvv hne

theorem prevReachInv_nil {α : Type} (m : Map α) (o : String) :
    prevReachInv m o ([] : List (String × String)) := by
  intro c p hv
  simp [alookup] at hv

theorem gReachInv_init {α : Type} [LinearOrderedCommRing α] (m : Map α) (o : String)
    (g0 : WithTop α) : gReachInv m o [(o, g0)] := by
  intro c v hv
  simp only [alookup] at hv
  by_cases hco : c = o
  · exact hco ▸ Relation.ReflTransGen.refl
  · rw [if_neg hco] at hv
    cases hv

set_option maxHeartbeats 1000000 in
/-- C5.  For every well-formed Map and distinct present city names o and
d with no chain of roads connecting them, the original Dijkstra returns
exactly ([], infinity), and whenever either queue-driven variant returns
a result at all (any fuel), that result is ([], infinity): a finite
recorded cost or a recorded previous link always certifies a road chain
from the origin, so the previous link of an unreachable destination
stays absent and the shared results helper answers the empty path with
infinite cost. -/
theorem C5_unreachable_destination {α : Type} [LinearOrderedCommRing α] (sq : α → α)
    (m : Map α) (o d : String) (hm : m.WF) (ho : (m.city o).isSome)
    (hd : (m.city d).isSome) (hne : o ≠ d) (hun : ¬ m.Reachable o d) :
    (shortest_path_dijkstra_original sq m o d).2 = .ok ([], (⊤ : WithTop α)) ∧
    (∀ fuel r, (shortest_path_dijkstra_priority_queue sq fuel m o d).2 = .ok r →
      r = ([], (⊤ : WithTop α))) ∧
    (∀ fuel r, (shortest_path_a_star sq fuel m o d).2 = .ok r →
      r = ([], (⊤ : WithTop α))) := by
  obtain ⟨cdo, hcdo⟩ := Option.isSome_iff_exists.mp ho
  obtain ⟨cdd, hcdd⟩ := Option.isSome_iff_exists.mp hd
  refine ⟨?_, ?_, ?_⟩
  · unfold shortest_path_dijkstra_original
    rw [safe_cities_ok m o d cdo cdd hcdo hcdd]
    obtain ⟨cost1, prev1, hloop⟩ := dijkstra_loop_ok sq m d hm
      ((m.cities.map Prod.fst).length + 1) (m.cities.map Prod.fst)
      ((m.cities.map Prod.fst).map (fun c => (c, if c = o then (0 : WithTop α) else ⊤))) []
      (by omega)
      (fun c hc => (alookup_isSome_iff m.cities c).mpr hc)
      (fun c hc => by
        rw [alookup_map_self _ _ _ ((alookup_isSome_iff m.cities c).mp hc)]
        rfl)
    have hinv := dijkstra_loop_inv sq m o d hm _ _ _ _ _ _ hloop
      (costReachInv_init m o (m.cities.map Prod.fst)) (prevReachInv_nil m o)
    have hpd : alookup prev1 d = none := by
      cases hpd1 : alookup prev1 d with
      | none => rfl
      | some p => exact absurd (hinv.2 d p hpd1) hun
    simp only [hloop]
    unfold results
    rw [hpd, if_neg hne]
  · intro fuel r h
    unfold shortest_path_dijkstra_priority_queue at h
    rw [safe_cities_ok m o d cdo cdd hcdo hcdd] at h
    rcases hinitv : dijkstra_pq_init (α := α) o (m.cities.map Prod.fst) with ⟨cost0, pq0⟩
    have hfold := dijkstra_pq_init_fold (α := α) o (m.cities.map Prod.fst) []
      PriorityQueue.empty (fun c hc => rfl) hm.1
    have hcost0 : cost0 =
        (m.cities.map Prod.fst).map (fun c => (c, if c = o then (0 : WithTop α) else ⊤)) := by
      simp only [dijkstra_pq_init, PriorityQueue.empty] at hinitv
      simp only [PriorityQueue.empty] at hfold
      rw [hfold] at hinitv
      simp only [Prod.mk.injEq, List.nil_append] at hinitv
      exact hinitv.1.symm
    simp only [hinitv] at h
    cases hloop : dijkstra_pq_loop sq m d fuel cost0 [] pq0 with
    | error e =>
      simp only [hloop] at h
      simp at h
    | ok p =>
      obtain ⟨cost1, prev1⟩ := p
      simp only [hloop] at h
      have hinv := dijkstra_pq_loop_inv sq m o d hm _ _ _ _ _ _ hloop
        (hcost0 ▸ costReachInv_init m o (m.cities.map Prod.fst)) (prevReachInv_nil m o)
      have hpd : alookup prev1 d = none := by
        cases hpd1 : alookup prev1 d with
        | none => rfl
        | some p1 => exact absurd (hinv.2 d p1 hpd1) hun
      unfold results at h
      rw [hpd, if_neg hne] at h
      simp only [Except.ok.injEq] at h
      exact h.symm
  · intro fuel r h
    unfold shortest_path_a_star at h
    rw [safe_cities_ok m o d cdo cdd hcdo hcdd] at h
    cases hloop : a_star_loop sq m d fuel (a_star_init sq m o d) with
    | error e =>
      simp only [hloop] at h
      simp at h
    | ok st =>
      simp only [hloop] at h
      have hginit : (a_star_init sq m o d).gScore = [(o, (0 : WithTop α))] := rfl
      have hpinit : (a_star_init sq m o d).prev = ([] : List (String × String)) := rfl
      have hinv := a_star_loop_inv sq m o d hm fuel _ _ hloop
        (by rw [hginit]; exact gReachInv_init m o 0) (by rw [hpinit]; exact prevReachInv_nil m o)
      have hpd : alookup st.prev d = none := by
        cases hpd1 : alookup st.prev d with
        | none => rfl
        | some p1 => exact absurd (hinv.2 d p1 hpd1) hun
      unfold results at h
      rw [hpd, if_neg hne] at h
      simp only [Except.ok.injEq] at h
      exact h.symm

/-- Three cities on the x axis with the single road A-B: C is road
disconnected from A and B. -/
def c5Map : Map ℤ :=
  { cities :=
      [ ("A", ⟨0, 0, [⟨"A", "B"⟩]⟩),
        ("B", ⟨2, 0, [⟨"A", "B"⟩]⟩),
        ("C", ⟨10, 0, []⟩) ],
    roads := [⟨"A", "B"⟩] }

/-- No chain of roads reaches C from A on c5Map. -/
theorem c5Map_not_reachable : ¬ c5Map.Reachable "A" "C" := by
  intro h
  have hsub : ∀ c, c5Map.Reachable "A" c → c = "A" ∨ c = "B" := by
    intro c hc
    induction hc with
    | refl => exact Or.inl rfl
    | tail h1 h2 ih =>
      obtain ⟨r, hr, hcon⟩ := h2
      have hrr : r = (⟨"A", "B"⟩ : Road) := by
        simpa [c5Map] using hr
      subst hrr
      rcases hcon with ⟨h3, h4⟩ | ⟨h3, h4⟩
      · exact Or.inr h4.symm
      · exact Or.inl h3.symm
  rcases hsub "C" h with h1 | h1
  · exact absurd h1 (by decide)
  · exact absurd h1 (by decide)

/-- Witness for C5 on c5Map from A to the disconnected C; the two fueled
runs are also evaluated directly at fuel 10. -/
theorem C5_unreachable_destination_witness :
    c5Map.WF ∧ (Map.city c5Map "A").isSome ∧ (Map.city c5Map "C").isSome ∧
    ("A" : String) ≠ "C" ∧ ¬ c5Map.Reachable "A" "C" ∧
    (shortest_path_dijkstra_original intSqrt c5Map "A" "C").2 = .ok ([], (⊤ : WithTop ℤ)) ∧
    (shortest_path_dijkstra_priority_queue intSqrt 10 c5Map "A" "C").2 =
      .ok ([], (⊤ : WithTop ℤ)) ∧
    (shortest_path_a_star intSqrt 10 c5Map "A" "C").2 = .ok ([], (⊤ : WithTop ℤ)) :=
  ⟨by decide, by decide, by decide, by decide, c5Map_not_reachable,
   (C5_unreachable_destination intSqrt c5Map "A" "C" (by decide) (by decide) (by decide)
     (by decide) c5Map_not_reachable).1,
   by decide, by decide⟩

/-! ## Claims C3 and C6: the decrease-key priority queue -/

/-- An entry is live when its value slot has not been overwritten by the
removed sentinel. -/
def PQEntry.isLive {P V : Type} (e : PQEntry P V) : Bool :=
  match e.slot with
  | Slot.val _ => true
  | Slot.removed => false

/-- The live entries of a heap, in heap order. -/
def liveEntries {P V : Type} (q : List (PQEntry P V)) : List (PQEntry P V) :=
  q.filter PQEntry.isLive

/-- A live heap entry is recorded in the entries dict under its value
and count; a removed entry carries no obligation. -/
def entryRegistered {P V : Type} (es : List (V × Nat)) : PQEntry P V → Prop
  | ⟨_, c, Slot.val v⟩ => (v, c) ∈ es
  | ⟨_, _, Slot.removed⟩ => True

instance {P V : Type} [DecidableEq P] [DecidableEq V] (es : List (V × Nat))
    (e : PQEntry P V) : Decidable (entryRegistered es e) := by
  obtain ⟨p1, c1, s1⟩ := e
  cases s1 with
  | val v => exact decidable_of_iff ((v, c1) ∈ es) Iff.rfl
  | removed => exact isTrue trivial

/-- The invariant of every queue reachable from empty through push, pop
and remove: heap counts are distinct and below the counter, the entries
dict and the live heap entries are in bijection (each dict pair points
at its one live entry and each live entry is registered), and dict keys
are distinct. -/
def PQwf {P V : Type} [DecidableEq P] [DecidableEq V] (pq : PriorityQueue P V) : Prop :=
  (pq.queue.map PQEntry.count).Nodup ∧
  (∀ e ∈ pq.queue, e.count < pq.counter) ∧
  (∀ p ∈ pq.entries, ∃ e ∈ pq.queue, e.count = p.2 ∧ e.slot = Slot.val p.1) ∧
  (∀ e ∈ pq.queue, entryRegistered pq.entries e) ∧
  (pq.entries.map Prod.fst).Nodup

instance {P V : Type} [DecidableEq P] [DecidableEq V] (pq : PriorityQueue P V) :
    Decidable (PQwf pq) := by
  unfold PQwf
  infer_instance

/-- The same queue with the stale sentinel records physically removed
from the heap. -/
def stripStale {P V : Type} (pq : PriorityQueue P V) : PriorityQueue P V :=
  { pq with queue := liveEntries pq.queue }

/-- The observable pop trace of a queue: pop values until a pop fails,
bounded by fuel. -/
def observeA {P V : Type} [LinearOrder P] [DecidableEq V] :
    Nat → PriorityQueue P V → List V
  | 0, _ => []
  | fuel+1, pq =>
    match pq.pop with
    | .error _ => []
    | .ok (v, pq1) => v :: observeA fuel pq1

/-- The full pop trace (each pop shortens the heap, so the heap size
bounds the number of pops). -/
def observe {P V : Type} [LinearOrder P] [DecidableEq V] (pq : PriorityQueue P V) : List V :=
  observeA pq.queue.length pq

theorem nodup_map_of_subperm {β γ : Type} (f : β → γ) {l1 l2 : List β}
    (h : List.Subperm l1 l2) (hn : (l2.map f).Nodup) : (l1.map f).Nodup := by
  obtain ⟨l, hp, hs⟩ := h
  have h1 : (l.map f).Nodup := (hs.map f).nodup hn
  exact ((hp.map f).nodup_iff).mp h1

theorem alookup_cons_pos {κ β : Type} [DecidableEq κ] (t : List (κ × β)) (k k1 : κ) (v1 : β)
    (h : k = k1) : alookup ((k1, v1) :: t) k = some v1 := by
  simp only [alookup, if_pos h]

theorem alookup_cons_neg {κ β : Type} [DecidableEq κ] (t : List (κ × β)) (k k1 : κ) (v1 : β)
    (h : k ≠ k1) : alookup ((k1, v1) :: t) k = alookup t k := by
  simp only [alookup, if_neg h]

theorem aerase_cons_pos {κ β : Type} [DecidableEq κ] (t : List (κ × β)) (k k1 : κ) (v1 : β)
    (h : k1 = k) : aerase ((k1, v1) :: t) k = t := by
  simp only [aerase, if_pos h]

theorem aerase_cons_neg {κ β : Type} [DecidableEq κ] (t : List (κ × β)) (k k1 : κ) (v1 : β)
    (h : k1 ≠ k) : aerase ((k1, v1) :: t) k = (k1, v1) :: aerase t k := by
  simp only [aerase, if_neg h]

theorem alookup_aerase_ne {κ β : Type} [DecidableEq κ] (l : List (κ × β)) (k k2 : κ)
    (h : k2 ≠ k) : alookup (aerase l k) k2 = alookup l k2 := by
  induction l with
  | nil => simp [aerase]
  | cons hd t ih =>
    obtain ⟨k1, v1⟩ := hd
    by_cases hk : k1 = k
    · subst hk
      rw [aerase_cons_pos t k1 k1 v1 rfl, alookup_cons_neg t k2 k1 v1 h]
    · rw [aerase_cons_neg t k k1 v1 hk]
      by_cases hk2 : k2 = k1
      · rw [alookup_cons_pos _ _ _ _ hk2, alookup_cons_pos _ _ _ _ hk2]
      · rw [alookup_cons_neg _ _ _ _ hk2, alookup_cons_neg _ _ _ _ hk2]
        exact ih

theorem alookup_aerase_self {κ β : Type} [DecidableEq κ] (l : List (κ × β)) (k : κ)
    (hnd : (l.map Prod.fst).Nodup) : alookup (aerase l k) k = none := by
  induction l with
  | nil => simp [aerase, alookup]
  | cons hd t ih =>
    obtain ⟨k1, v1⟩ := hd
    simp only [List.map_cons, List.nodup_cons] at hnd
    by_cases hk : k1 = k
    · subst hk
      rw [aerase_cons_pos t k1 k1 v1 rfl]
      cases hl : alookup t k1 with
      | none => rfl
      | some v2 =>
        exact absurd ((alookup_isSome_iff t k1).mp (by rw [hl]; rfl)) hnd.1
    · rw [aerase_cons_neg t k k1 v1 hk, alookup_cons_neg _ _ _ _ (fun he => hk he.symm)]
      exact ih hnd.2

theorem aerase_length {κ β : Type} [DecidableEq κ] (l : List (κ × β)) (k : κ)
    (h : (alookup l k).isSome) : (aerase l k).length + 1 = l.length := by
  induction l with
  | nil => simp [alookup] at h
  | cons hd t ih =>
    obtain ⟨k1, v1⟩ := hd
    by_cases hk : k1 = k
    · rw [aerase_cons_pos t k k1 v1 hk]
      simp
    · rw [alookup_cons_neg t k k1 v1 (fun he => hk he.symm)] at h
      rw [aerase_cons_neg t k k1 v1 hk]
      simp only [List.length_cons]
      rw [ih h]

theorem alookup_append {κ β : Type} [DecidableEq κ] (l1 l2 : List (κ × β)) (k : κ) :
    alookup (l1 ++ l2) k =
      match alookup l1 k with
      | some v => some v
      | none => alookup l2 k := by
  induction l1 with
  | nil => simp [alookup]
  | cons hd t ih =>
    obtain ⟨k1, v1⟩ := hd
    by_cases hk : k = k1
    · rw [List.cons_append, alookup_cons_pos _ _ _ _ hk, alookup_cons_pos _ _ _ _ hk]
    · rw [List.cons_append, alookup_cons_neg _ _ _ _ hk, alookup_cons_neg _ _ _ _ hk]
      exact ih

theorem popAux_no_live {P V : Type} [LinearOrder P] [DecidableEq V] :
    ∀ (fuel : Nat) (q : List (PQEntry P V)) (es : List (V × Nat)),
      (∀ x ∈ q, x.isLive = false) →
      popAux fuel q es = .error Err.emptyQueue := by
  intro fuel
  induction fuel with
  | zero => intro q es h; rfl
  | succ f ih =>
    intro q es h
    cases hhp : heapPop q with
    | none => simp [popAux, hhp]
    | some p =>
      obtain ⟨m, q2⟩ := p
      obtain ⟨hmem, hmin, hperm⟩ := heapPop_spec q m q2 hhp
      have hm : m.isLive = false := h m hmem
      have hms : m.slot = Slot.removed := by
        unfold PQEntry.isLive at hm
        cases hsl : m.slot with
        | val v => rw [hsl] at hm; cases hm
        | removed => rfl
      simp only [popAux, hhp, hms]
      refine ih q2 es ?_
      intro x hx
      exact h x (hperm.symm.subset (List.mem_cons_of_mem _ hx))

theorem popAux_live {P V : Type} [LinearOrder P] [DecidableEq V] :
    ∀ (fuel : Nat) (q : List (PQEntry P V)) (es : List (V × Nat)),
      q.length ≤ fuel →
      (∃ x ∈ q, x.isLive = true) →
      ∃ (e : PQEntry P V) (v : V) (q1 : List (PQEntry P V)),
        popAux fuel q es = .ok (v, q1, aerase es v) ∧
        e ∈ q ∧ e.slot = Slot.val v ∧ e.isLive = true ∧
        (∀ x ∈ q, x.isLive = true → entryLE e x) ∧
        (liveEntries q).Perm (e :: liveEntries q1) ∧
        List.Subperm (e :: q1) q := by
  intro fuel
  induction fuel with
  | zero =>
    intro q es hlen hlive
    obtain ⟨x, hx, _⟩ := hlive
    have : q = [] := List.length_eq_zero.mp (Nat.le_zero.mp hlen)
    subst this
    cases hx
  | succ f ih =>
    intro q es hlen hlive
    cases hhp : heapPop q with
    | none =>
      obtain ⟨x, hx, _⟩ := hlive
      have : q = [] := (heapPop_eq_none_iff q).mp hhp
      subst this
      cases hx
    | some p =>
      obtain ⟨m, q2⟩ := p
      obtain ⟨hmem, hmin, hperm⟩ := heapPop_spec q m q2 hhp
      cases hms : m.slot with
      | val v =>
        have hmlive : m.isLive = true := by
          unfold PQEntry.isLive
          rw [hms]
        refine ⟨m, v, q2, ?_, hmem, hms, hmlive, ?_, ?_, ?_⟩
        · simp only [popAux, hhp, hms]
        · intro x hx _
          exact hmin x hx
        · have h1 : (liveEntries q).Perm (liveEntries (m :: q2)) := hperm.filter _
          have h2 : liveEntries (m :: q2) = m :: liveEntries q2 := by
            unfold liveEntries
            rw [List.filter_cons]
            simp [hmlive]
          rw [h2] at h1
          exact h1
        · exact hperm.symm.subperm
      | removed =>
        have hmdead : m.isLive = false := by
          unfold PQEntry.isLive
          rw [hms]
        have hlen2 : q2.length ≤ f := by
          have := hperm.length_eq
          simp only [List.length_cons] at this
          omega
        have hlive2 : ∃ x ∈ q2, x.isLive = true := by
          obtain ⟨x, hx, hxl⟩ := hlive
          have hx2 : x ∈ m :: q2 := hperm.subset hx
          rcases List.mem_cons.mp hx2 with h1 | h1
          · rw [h1] at hxl
            rw [hxl] at hmdead
            cases hmdead
          · exact ⟨x, h1, hxl⟩
        obtain ⟨e, v, q1, hpop, hein, hes, heliv, hmin2, hperm2, hsub⟩ := ih q2 es hlen2 hlive2
        refine ⟨e, v, q1, ?_, ?_, hes, heliv, ?_, ?_, ?_⟩
        · simp only [popAux, hhp, hms]
          exact hpop
        · exact hperm.symm.subset (List.mem_cons_of_mem _ hein)
        · intro x hx hxl
          have hx2 : x ∈ m :: q2 := hperm.subset hx
          rcases List.mem_cons.mp hx2 with h1 | h1
          · rw [h1] at hxl
            rw [hxl] at hmdead
            cases hmdead
          · exact hmin2 x h1 hxl
        · have h1 : (liveEntries q).Perm (liveEntries (m :: q2)) := hperm.filter _
          have h2 : liveEntries (m :: q2) = liveEntries q2 := by
            unfold liveEntries
            rw [List.filter_cons]
            simp [hmdead]
          rw [h2] at h1
          exact h1.trans hperm2
        · exact hsub.trans ((List.sublist_cons_self m q2).subperm.trans hperm.symm.subperm)

/-- Popping any queue with a live entry succeeds and returns the
least-(priority, count) live value; only the live entries determine the
returned value. -/
theorem pop_of_live {P V : Type} [LinearOrder P] [DecidableEq V] (pq : PriorityQueue P V)
    (hlive : ∃ x ∈ pq.queue, x.isLive = true) :
    ∃ (e : PQEntry P V) (v : V) (pq1 : PriorityQueue P V),
      pq.pop = .ok (v, pq1) ∧ e ∈ pq.queue ∧ e.slot = Slot.val v ∧
      (∀ x ∈ pq.queue, x.isLive = true → entryLE e x) ∧
      (liveEntries pq.queue).Perm (e :: liveEntries pq1.queue) ∧
      List.Subperm (e :: pq1.queue) pq.queue ∧
      pq1.entries = aerase pq.entries v ∧ pq1.counter = pq.counter := by
  obtain ⟨e, v, q1, hpop, hein, hes, heliv, hmin, hperm, hsub⟩ :=
    popAux_live pq.queue.length pq.queue pq.entries le_rfl hlive
  refine ⟨e, v, { pq with queue := q1, entries := aerase pq.entries v },
    ?_, hein, hes, hmin, hperm, hsub, rfl, rfl⟩
  unfold PriorityQueue.pop
  rw [hpop]

/-- A queue without live entries observes as the empty trace. -/
theorem observeA_no_live {P V : Type} [LinearOrder P] [DecidableEq V] (fuel : Nat)
    (pq : PriorityQueue P V) (h : ∀ x ∈ pq.queue, x.isLive = false) :
    observeA fuel pq = [] := by
  cases fuel with
  | zero => rfl
  | succ f =>
    have hpop : pq.pop = .error Err.emptyQueue := by
      unfold PriorityQueue.pop
      rw [popAux_no_live pq.queue.length pq.queue pq.entries h]
    simp only [observeA, hpop]

theorem entryLE_antisymm_parts {P V : Type} [LinearOrder P] {a b : PQEntry P V}
    (h1 : entryLE a b) (h2 : entryLE b a) : a.priority = b.priority ∧ a.count = b.count := by
  rcases h1 with h1 | ⟨h1, h1c⟩
  · rcases h2 with h2 | ⟨h2, h2c⟩
    · exact absurd (lt_trans h1 h2) (lt_irrefl _)
    · rw [h2] at h1
      exact absurd h1 (lt_irrefl _)
  · rcases h2 with h2 | ⟨h2, h2c⟩
    · rw [h1] at h2
      exact absurd h2 (lt_irrefl _)
    · exact ⟨h1, le_antisymm h1c h2c⟩

/-- The pop trace of a queue depends only on the multiset of its live
entries (counts being unique): stale sentinel records and heap order are
irrelevant, and the fuel is irrelevant once it covers the heap size. -/
theorem observeA_congr {P V : Type} [LinearOrder P] [DecidableEq V] :
    ∀ (n : Nat) (pq pq2 : PriorityQueue P V) (fuel1 fuel2 : Nat),
      pq.queue.length ≤ n →
      (pq.queue.map PQEntry.count).Nodup →
      (pq2.queue.map PQEntry.count).Nodup →
      (liveEntries pq.queue).Perm (liveEntries pq2.queue) →
      pq.queue.length ≤ fuel1 → pq2.queue.length ≤ fuel2 →
      observeA fuel1 pq = observeA fuel2 pq2 := by
  intro n
  induction n with
  | zero =>
    intro pq pq2 fuel1 fuel2 hn hnd1 hnd2 hl hf1 hf2
    have hq : pq.queue = [] := List.length_eq_zero.mp (Nat.le_zero.mp hn)
    have hle : liveEntries pq.queue = [] := by
      rw [hq]
      rfl
    rw [hle] at hl
    have hle2 : ∀ x ∈ pq2.queue, x.isLive = false := by
      have h2 := List.Perm.nil_eq hl
      intro x hx
      by_cases hlx : x.isLive = true
      · have : x ∈ liveEntries pq2.queue := List.mem_filter.mpr ⟨hx, hlx⟩
        rw [← h2] at this
        cases this
      · exact Bool.not_eq_true _ |>.mp hlx
    rw [observeA_no_live fuel1 pq (by rw [hq]; intro x hx; cases hx),
      observeA_no_live fuel2 pq2 hle2]
  | succ n ih =>
    intro pq pq2 fuel1 fuel2 hn hnd1 hnd2 hl hf1 hf2
    by_cases hlive : ∃ x ∈ pq.queue, x.isLive = true
    · have hlive2 : ∃ x ∈ pq2.queue, x.isLive = true := by
        obtain ⟨x, hx, hxl⟩ := hlive
        have h1 : x ∈ liveEntries pq.queue := List.mem_filter.mpr ⟨hx, hxl⟩
        have h2 : x ∈ liveEntries pq2.queue := hl.subset h1
        have h3 := List.mem_filter.mp h2
        exact ⟨x, h3.1, h3.2⟩
      obtain ⟨e, v, pq1, hpop, hein, hes, hmin, hperm, hsub, hent, hcnt⟩ :=
        pop_of_live pq hlive
      obtain ⟨e2, v2, pq1b, hpop2, hein2, hes2, hmin2, hperm2, hsub2, hent2, hcnt2⟩ :=
        pop_of_live pq2 hlive2
      have helive : e.isLive = true := by
        unfold PQEntry.isLive
        rw [hes]
      have helive2 : e2.isLive = true := by
        unfold PQEntry.isLive
        rw [hes2]
      have he2q : e2 ∈ pq.queue ∧ e2.isLive = true := by
        have h1 : e2 ∈ liveEntries pq2.queue := List.mem_filter.mpr ⟨hein2, helive2⟩
        have h2 : e2 ∈ liveEntries pq.queue := hl.symm.subset h1
        have h3 := List.mem_filter.mp h2
        exact ⟨h3.1, h3.2⟩
      have heq2 : e ∈ pq2.queue ∧ e.isLive = true := by
        have h1 : e ∈ liveEntries pq.queue := List.mem_filter.mpr ⟨hein, helive⟩
        have h2 : e ∈ liveEntries pq2.queue := hl.subset h1
        have h3 := List.mem_filter.mp h2
        exact ⟨h3.1, h3.2⟩
      have hle1 : entryLE e e2 := hmin e2 he2q.1 he2q.2
      have hle2 : entryLE e2 e := hmin2 e heq2.1 heq2.2
      have hpc := entryLE_antisymm_parts hle1 hle2
      have hee : e = e2 :=
        List.inj_on_of_nodup_map hnd1 hein he2q.1 hpc.2
      have hvv : v = v2 := by
        rw [hee] at hes
        rw [hes] at hes2
        cases hes2
        rfl
      have hlperm : (liveEntries pq1.queue).Perm (liveEntries pq1b.queue) := by
        have h1 : (e :: liveEntries pq1.queue).Perm (e :: liveEntries pq1b.queue) := by
          refine hperm.symm.trans (hl.trans ?_)
          rw [hee]
          exact hperm2
        exact (List.perm_cons e).mp h1
      have hlen1 : pq1.queue.length < pq.queue.length := by
        have := hsub.length_le
        simp only [List.length_cons] at this
        omega
      have hlen2 : pq1b.queue.length < pq2.queue.length := by
        have := hsub2.length_le
        simp only [List.length_cons] at this
        omega
      have hnd1b : (pq1.queue.map PQEntry.count).Nodup :=
        nodup_map_of_subperm _ (List.Subperm.cons_self.trans hsub) hnd1
      have hnd2b : (pq1b.queue.map PQEntry.count).Nodup :=
        nodup_map_of_subperm _ (List.Subperm.cons_self.trans hsub2) hnd2
      cases fuel1 with
      | zero =>
        obtain ⟨x, hx, _⟩ := hlive
        have : pq.queue = [] := List.length_eq_zero.mp (Nat.le_zero.mp hf1)
        rw [this] at hx
        cases hx
      | succ f1 =>
        cases fuel2 with
        | zero =>
          obtain ⟨x, hx, _⟩ := hlive2
          have : pq2.queue = [] := List.length_eq_zero.mp (Nat.le_zero.mp hf2)
          rw [this] at hx
          cases hx
        | succ f2 =>
          simp only [observeA, hpop, hpop2]
          rw [hvv]
          refine congrArg _ ?_
          refine ih pq1 pq1b f1 f2 ?_ hnd1b hnd2b hlperm ?_ ?_
          · omega
          · omega
          · omega
    · have hdead : ∀ x ∈ pq.queue, x.isLive = false := by
        intro x hx
        by_cases hlx : x.isLive = true
        · exact absurd ⟨x, hx, hlx⟩ hlive
        · exact Bool.not_eq_true _ |>.mp hlx
      have hdead2 : ∀ x ∈ pq2.queue, x.isLive = false := by
        intro x hx
        by_cases hlx : x.isLive = true
        · have h1 : x ∈ liveEntries pq2.queue := List.mem_filter.mpr ⟨hx, hlx⟩
          have h2 : x ∈ liveEntries pq.queue := hl.symm.subset h1
          have h3 := List.mem_filter.mp h2
          exact absurd ⟨x, h3.1, h3.2⟩ hlive
        · exact Bool.not_eq_true _ |>.mp hlx
      rw [observeA_no_live fuel1 pq hdead, observeA_no_live fuel2 pq2 hdead2]

theorem remove_counter {P V : Type} [LinearOrder P] [DecidableEq V] (pq : PriorityQueue P V)
    (v : V) : (pq.remove v).counter = pq.counter := by
  unfold PriorityQueue.remove
  cases alookup pq.entries v with
  | none => rfl
  | some c => rfl

theorem push_spec {P V : Type} [LinearOrder P] [DecidableEq V] (pq : PriorityQueue P V)
    (v : V) (p : P) :
    (pq.push v p).counter = pq.counter + 1 ∧
    (⟨p, pq.counter, Slot.val v⟩ : PQEntry P V) ∈ (pq.push v p).queue := by
  unfold PriorityQueue.push
  by_cases hv : (alookup pq.entries v).isSome = true
  · rw [if_pos hv]
    constructor
    · simp [remove_counter]
    · show (⟨p, pq.counter, Slot.val v⟩ : PQEntry P V) ∈
        (pq.remove v).queue ++ [⟨p, (pq.remove v).counter, Slot.val v⟩]
      rw [remove_counter]
      exact List.mem_append_right _ (List.mem_singleton.mpr rfl)
  · rw [if_neg hv]
    exact ⟨rfl, List.mem_append_right _ (List.mem_singleton.mpr rfl)⟩

theorem remove_counts {P V : Type} [LinearOrder P] [DecidableEq V] (pq : PriorityQueue P V)
    (v : V) : (pq.remove v).queue.map PQEntry.count = pq.queue.map PQEntry.count := by
  unfold PriorityQueue.remove
  cases hc : alookup pq.entries v with
  | none => rfl
  | some c =>
    simp only [List.map_map]
    refine List.map_congr_left ?_
    intro e he
    by_cases hec : e.count = c
    · simp [Function.comp, hec]
    · simp [Function.comp, hec]

theorem push_counts_nodup {P V : Type} [LinearOrder P] [DecidableEq V]
    (pq : PriorityQueue P V) (hwf : PQwf pq) (v : V) (p : P) :
    (((pq.push v p).queue).map PQEntry.count).Nodup := by
  obtain ⟨hnd, hlt, _, _, _⟩ := hwf
  have hfresh : pq.counter ∉ pq.queue.map PQEntry.count := by
    intro hmem
    obtain ⟨e, he, hec⟩ := List.mem_map.mp hmem
    exact absurd hec (ne_of_lt (hlt e he))
  unfold PriorityQueue.push
  by_cases hv : (alookup pq.entries v).isSome = true
  · rw [if_pos hv]
    rw [List.map_append, remove_counts, remove_counter]
    refine ((List.perm_append_singleton _ _).nodup_iff).mpr ?_
    exact List.nodup_cons.mpr ⟨hfresh, hnd⟩
  · rw [if_neg hv]
    rw [List.map_append]
    refine ((List.perm_append_singleton _ _).nodup_iff).mpr ?_
    exact List.nodup_cons.mpr ⟨hfresh, hnd⟩

theorem push_entries_of_present {P V : Type} [LinearOrder P] [DecidableEq V]
    (pq : PriorityQueue P V) (v : V) (p : P) (hv : (alookup pq.entries v).isSome = true) :
    (pq.push v p).entries = aerase pq.entries v ++ [(v, pq.counter)] := by
  unfold PriorityQueue.push PriorityQueue.remove
  rw [if_pos hv]
  cases hc : alookup pq.entries v with
  | none =>
    rw [hc] at hv
    cases hv
  | some c => rfl

set_option maxHeartbeats 800000 in
/-- C6.  On every well-formed queue: pop returns the live value whose
entry is least in the (priority, sequence-count) lexicographic order —
the minimum-priority live value, with ties broken by the smaller, hence
earlier, sequence count (FIFO among equal priorities) — and every push
attaches the strictly increasing sequence counter as the secondary key:
the fresh entry carries the current counter value, which exceeds the
count of every entry already in the heap, and the counter then
increments (an update reassigns a fresh counter the same way, since its
lazy removal precedes the fresh insert). -/
theorem C6_fifo_pop_and_fresh_counters {P V : Type} [LinearOrder P] [DecidableEq V]
    (pq : PriorityQueue P V) (hwf : PQwf pq) :
    (pq.entries ≠ [] →
      ∃ (v : V) (pq1 : PriorityQueue P V) (e : PQEntry P V),
        pq.pop = .ok (v, pq1) ∧ e ∈ pq.queue ∧ e.slot = Slot.val v ∧
        (∀ x ∈ pq.queue, x.isLive = true →
          e.priority < x.priority ∨ (e.priority = x.priority ∧ e.count ≤ x.count))) ∧
    (∀ (v : V) (p : P),
      (pq.push v p).counter = pq.counter + 1 ∧
      (⟨p, pq.counter, Slot.val v⟩ : PQEntry P V) ∈ (pq.push v p).queue ∧
      (∀ e ∈ pq.queue, e.count < pq.counter)) := by
  constructor
  · intro hne
    obtain ⟨p0, hp0⟩ := List.exists_mem_of_ne_nil pq.entries hne
    obtain ⟨e0, he0, he0c, he0s⟩ := hwf.2.2.1 p0 hp0
    have hlive : ∃ x ∈ pq.queue, x.isLive = true :=
      ⟨e0, he0, by unfold PQEntry.isLive; rw [he0s]⟩
    obtain ⟨e, v, pq1, hpop, hein, hes, hmin, _, _, _, _⟩ := pop_of_live pq hlive
    refine ⟨v, pq1, e, hpop, hein, hes, ?_⟩
    intro x hx hxl
    have h1 := hmin x hx hxl
    unfold entryLE at h1
    exact h1
  · intro v p
    exact ⟨(push_spec pq v p).1, (push_spec pq v p).2, hwf.2.1⟩

set_option maxHeartbeats 800000 in
/-- C3.  On a well-formed queue already holding the value v, push(v, p)
updates the priority of v exactly as a remove followed by a fresh
insert (that is literally the code path), and the stale sentinel record
left in the heap never affects anything observable: the live-entry
count is unchanged, membership is unchanged for every value, and the
whole future pop trace coincides with that of the queue from which the
stale records have been physically removed — the queue behaves as if p
were the only priority v ever had. -/
theorem C3_push_update_decrease_key {P V : Type} [LinearOrder P] [DecidableEq V]
    (pq : PriorityQueue P V) (v : V) (p : P) (hwf : PQwf pq)
    (hv : pq.containsVal v = true) :
    pq.push v p = (pq.remove v).push v p ∧
    (pq.push v p).size = pq.size ∧
    (∀ w, (pq.push v p).containsVal w = pq.containsVal w) ∧
    observe (pq.push v p) = observe (stripStale (pq.push v p)) := by
  have hv1 : (alookup pq.entries v).isSome = true := hv
  have hrem : (pq.remove v).entries = aerase pq.entries v := by
    unfold PriorityQueue.remove
    cases hc : alookup pq.entries v with
    | none =>
      rw [hc] at hv1
      cases hv1
    | some c => rfl
  have hps := push_entries_of_present pq v p hv1
  refine ⟨?_, ?_, ?_, ?_⟩
  · have hnone : ¬ ((alookup (pq.remove v).entries v).isSome = true) := by
      rw [hrem, alookup_aerase_self _ _ hwf.2.2.2.2]
      simp
    unfold PriorityQueue.push
    rw [if_pos hv1, if_neg hnone]
  · unfold PriorityQueue.size
    rw [hps, List.length_append, List.length_cons, List.length_nil]
    have := aerase_length pq.entries v hv1
    omega
  · intro w
    unfold PriorityQueue.containsVal
    rw [hps, alookup_append]
    by_cases hw : w = v
    · subst hw
      rw [alookup_aerase_self _ _ hwf.2.2.2.2]
      rw [alookup_cons_pos _ _ _ _ rfl]
      rw [hv1]
      rfl
    · rw [alookup_aerase_ne _ _ _ hw]
      cases hlw : alookup pq.entries w with
      | some x => rfl
      | none =>
        rw [alookup_cons_neg _ _ _ _ hw]
        rfl
  · unfold observe
    refine observeA_congr ((pq.push v p).queue.length) _ _ _ _ le_rfl
      (push_counts_nodup pq hwf v p) ?_ ?_ le_rfl le_rfl
    · exact nodup_map_of_subperm _ (List.filter_sublist _).subperm
        (push_counts_nodup pq hwf v p)
    · have h1 : liveEntries (stripStale (pq.push v p)).queue =
          liveEntries (pq.push v p).queue := by
        unfold stripStale liveEntries
        exact List.filter_eq_self.mpr (fun a ha => (List.mem_filter.mp ha).2)
      rw [h1]

/-- A one-element queue holding x at priority 5; the C3 witness then
updates it to priority 2. -/
def c3Queue : PriorityQueue ℕ String := PriorityQueue.empty.push "x" 5

/-- Witness for C3: the scenario of the specification, push(x, 5) then
push(x, 2); pop returns x and the stale priority-5 sentinel is
observably irrelevant. -/
theorem C3_push_update_decrease_key_witness :
    PQwf c3Queue ∧ c3Queue.containsVal "x" = true ∧
    c3Queue.push "x" 2 = (c3Queue.remove "x").push "x" 2 ∧
    (c3Queue.push "x" 2).size = c3Queue.size ∧
    (c3Queue.push "x" 2).containsVal "x" = c3Queue.containsVal "x" ∧
    observe (c3Queue.push "x" 2) = observe (stripStale (c3Queue.push "x" 2)) ∧
    (c3Queue.push "x" 2).pop =
      .ok ("x", (⟨[⟨5, 0, Slot.removed⟩], [], 2⟩ : PriorityQueue ℕ String)) ∧
    observe (c3Queue.push "x" 2) = ["x"] :=
  ⟨by decide, by decide,
   (C3_push_update_decrease_key c3Queue "x" 2 (by decide) (by decide)).1,
   (C3_push_update_decrease_key c3Queue "x" 2 (by decide) (by decide)).2.1,
   (C3_push_update_decrease_key c3Queue "x" 2 (by decide) (by decide)).2.2.1 "x",
   (C3_push_update_decrease_key c3Queue "x" 2 (by decide) (by decide)).2.2.2,
   by decide, by decide⟩

/-- A queue with two equal-priority values pushed in order a, b and a
later value c. -/
def c6Queue : PriorityQueue ℕ String :=
  ((PriorityQueue.empty.push "a" 5).push "b" 5).push "c" 7

/-- Witness for C6: the FIFO tie-break picks a (count 0) over b (count
1) at equal priority 5, and a push attaches the next counter. -/
theorem C6_fifo_pop_and_fresh_counters_witness :
    PQwf c6Queue ∧ c6Queue.entries ≠ [] ∧
    (∃ (v : String) (pq1 : PriorityQueue ℕ String) (e : PQEntry ℕ String),
      c6Queue.pop = .ok (v, pq1) ∧ e ∈ c6Queue.queue ∧ e.slot = Slot.val v ∧
      (∀ x ∈ c6Queue.queue, x.isLive = true →
        e.priority < x.priority ∨ (e.priority = x.priority ∧ e.count ≤ x.count))) ∧
    ((c6Queue.push "d" 1).counter = c6Queue.counter + 1 ∧
      (⟨1, c6Queue.counter, Slot.val "d"⟩ : PQEntry ℕ String) ∈ (c6Queue.push "d" 1).queue ∧
      (∀ e ∈ c6Queue.queue, e.count < c6Queue.counter)) ∧
    c6Queue.pop = .ok ("a",
      (⟨[⟨5, 1, Slot.val "b"⟩, ⟨7, 2, Slot.val "c"⟩], [("b", 1), ("c", 2)], 3⟩ :
        PriorityQueue ℕ String)) :=
  ⟨by decide, by decide,
   (C6_fifo_pop_and_fresh_counters c6Queue (by decide)).1 (by decide),
   (C6_fifo_pop_and_fresh_counters c6Queue (by decide)).2 "d" 1,
   by decide⟩
